import Mathlib

/-!
Undirected graphs and depth-first paths

A shallow embedding of `graph/undirected.go`: the `Undirected` graph type with
`NewUndirected`, `NewUndirectedFromReader`, `AddEdge`, `Adj` and `String`, and
the `DepthFirstPaths` path finder with `NewDepthFirstPaths`, `dfs`, `HasPathTo`
and `PathTo`.

Conventions of the embedding.

* Go `int` is `Int`; slices are `List`s; slice indexing with an index outside
  the slice panics, which is `Fault.panic` here.
* A Go function returning `(T, error)` returns `Except Fault T` with
  `Fault.error` for the returned error; a Go panic is `Fault.panic`.
* Recursion and unbounded `for` loops carry a fuel counter; running out of it
  is `Fault.fuel`, and is proved not to happen.
* The edge count is not wrapped at `2^63`: a graph with that many edges would
  need more adjacency entries than a slice can hold.
* `NewIterativeDepthFirstPaths` is not in `graph/undirected.go`; its model
  follows the description of the iterative path finder in the specification.
* A text is a list of characters, one per byte. The library functions the
  reader and the rendering call (`bufio.Scanner`, `strconv.Atoi`,
  `strings.Split`, `strconv.Itoa`, the verb `%d`) are modelled after their
  documented behaviour.
-/

namespace Graph

/-- The three ways a call can fail to produce a value: a returned `error`, a
panic, or exhaustion of the fuel given to a loop or a recursion. -/
inductive Fault
  | error
  | panic
  | fuel
deriving DecidableEq, Repr

deriving instance DecidableEq for Except

/-- Slice read `l[i]` with a Go `int` index: panics outside `[0, len l)`. -/
def getAt {α : Type} (l : List α) (i : Int) : Except Fault α :=
  if i < 0 then .error .panic
  else
    match l[i.toNat]? with
    | some a => .ok a
    | none => .error .panic

/-- Slice write `l[i] = a` with a Go `int` index: panics outside `[0, len l)`. -/
def setAt {α : Type} (l : List α) (i : Int) (a : α) : Except Fault (List α) :=
  if i < 0 then .error .panic
  else if i.toNat < l.length then .ok (l.set i.toNat a)
  else .error .panic

/-- The struct `Undirected`: vertex count, edge count, adjacency slices. -/
structure Undirected where
  v : Int
  e : Int
  adj : List (List Int)
deriving DecidableEq, Repr

/-- `NewUndirected(v)`: an error for negative `v`, otherwise `v` empty
adjacency slices and no edges. -/
def NewUndirected (v : Int) : Except Fault Undirected :=
  if v < 0 then .error .error
  else .ok { v := v, e := 0, adj := List.replicate v.toNat [] }

namespace Undirected

/-- `V()` returns the number of vertices. -/
def V (u : Undirected) : Int := u.v

/-- `E()` returns the number of edges. -/
def E (u : Undirected) : Int := u.e

/-- `validateVertex(v)`: an error when `v < 0 || v > V()-1`. -/
def validateVertex (u : Undirected) (v : Int) : Except Fault Unit :=
  if v < 0 ∨ v > u.V - 1 then .error .error else .ok ()

/-- `AddEdge(v, w)`: panics on an invalid endpoint, otherwise appends `w` to
`adj[v]`, then `v` to `adj[w]`, and increments the edge count. -/
def AddEdge (u : Undirected) (v w : Int) : Except Fault Undirected :=
  match u.validateVertex v with
  | .error _ => .error .panic
  | .ok _ =>
    match u.validateVertex w with
    | .error _ => .error .panic
    | .ok _ =>
      match getAt u.adj v with
      | .error f => .error f
      | .ok av =>
        match setAt u.adj v (av ++ [w]) with
        | .error f => .error f
        | .ok adj1 =>
          match getAt adj1 w with
          | .error f => .error f
          | .ok aw =>
            match setAt adj1 w (aw ++ [v]) with
            | .error f => .error f
            | .ok adj2 => .ok { v := u.v, e := u.e + 1, adj := adj2 }

/-- `Adj(v)`: panics on an invalid vertex, otherwise returns `adj[v]`. -/
def Adj (u : Undirected) (v : Int) : Except Fault (List Int) :=
  match u.validateVertex v with
  | .error _ => .error .panic
  | .ok _ => getAt u.adj v

/-- A sequence of `AddEdge` calls, in order, stopping at the first panic. -/
def addEdges : Undirected → List (Int × Int) → Except Fault Undirected
  | g, [] => .ok g
  | g, (v, w) :: es =>
    match g.AddEdge v w with
    | .error f => .error f
    | .ok g1 => addEdges g1 es

end Undirected

/-- The graph obtained from `NewUndirected(V)` by calling `AddEdge(v, w)` for
each listed edge in order. -/
def buildGraph (V : Int) (edges : List (Int × Int)) : Except Fault Undirected :=
  match NewUndirected V with
  | .error f => .error f
  | .ok g => g.addEdges edges

/-- The insertion-order neighbour sequence of `u` read off an edge list: scan
the edges in order, emit `w` when `v = u` and then `v` when `w = u`. -/
def insertionOrderAdj (u : Int) : List (Int × Int) → List Int
  | [] => []
  | (v, w) :: es =>
    (if v = u then [w] else []) ++ (if w = u then [v] else []) ++ insertionOrderAdj u es

/-- The struct `DepthFirstPaths`: the graph, the source, and the `marked` and
`edgeTo` slices filled by the traversal. -/
structure DepthFirstPaths where
  g : Undirected
  s : Int
  marked : List Bool
  edgeTo : List Int
deriving DecidableEq, Repr

namespace DepthFirstPaths

/-- The body of `dfs(v)`: the `for _, w := range Adj(v)` loop over the
neighbours still to be visited, with the recursive call passed as `call`. -/
def dfsLoop (call : DepthFirstPaths → Int → Except Fault DepthFirstPaths) (v : Int) :
    List Int → DepthFirstPaths → Except Fault DepthFirstPaths
  | [], dfp => .ok dfp
  | w :: ws, dfp =>
    match getAt dfp.marked w with
    | .error f => .error f
    | .ok true => dfsLoop call v ws dfp
    | .ok false =>
      match setAt dfp.edgeTo w v with
      | .error f => .error f
      | .ok edgeTo1 =>
        match setAt dfp.marked w true with
        | .error f => .error f
        | .ok marked1 =>
          match call { dfp with marked := marked1, edgeTo := edgeTo1 } w with
          | .error f => .error f
          | .ok dfp1 => dfsLoop call v ws dfp1

/-- `dfs(v)`, with the recursion depth bounded by the fuel. -/
def dfs : Nat → DepthFirstPaths → Int → Except Fault DepthFirstPaths
  | 0, _, _ => .error .fuel
  | n + 1, dfp, v =>
    match dfp.g.Adj v with
    | .error f => .error f
    | .ok ws => dfsLoop (dfs n) v ws dfp

/-- `HasPathTo(v)`: panics on an invalid vertex, otherwise `marked[v]`. -/
def HasPathTo (dfp : DepthFirstPaths) (v : Int) : Except Fault Bool :=
  match dfp.g.validateVertex v with
  | .error _ => .error .panic
  | .ok _ => getAt dfp.marked v

/-- The first loop of `PathTo`: append `v`, stop at the source, otherwise
continue from `edgeTo[v]`. Each iteration takes one unit of fuel. -/
def pathToLoop (edgeTo : List Int) (s : Int) : Nat → Int → List Int → Except Fault (List Int)
  | 0, _, _ => .error .fuel
  | n + 1, v, p =>
    if v = s then .ok (p ++ [v])
    else
      match getAt edgeTo v with
      | .error f => .error f
      | .ok v1 => pathToLoop edgeTo s n v1 (p ++ [v])

/-- The second loop of `PathTo`: swap `p[i]` and `p[j]` while `i < j`, moving
`i` up and `j` down. Each test of `i < j` takes one unit of fuel. -/
def reverseLoop : Nat → Int → Int → List Int → Except Fault (List Int)
  | 0, _, _, _ => .error .fuel
  | n + 1, i, j, p =>
    if i < j then
      match getAt p i with
      | .error f => .error f
      | .ok a =>
        match getAt p j with
        | .error f => .error f
        | .ok b =>
          match setAt p i b with
          | .error f => .error f
          | .ok p1 =>
            match setAt p1 j a with
            | .error f => .error f
            | .ok p2 => reverseLoop n (i + 1) (j - 1) p2
    else .ok p

/-- `PathTo(v)`: `none` is the `nil` result for a vertex without a path,
`some p` the path. The predecessor walk gets `V` units of fuel, the reversal
`len(p) + 1`. -/
def PathTo (dfp : DepthFirstPaths) (v : Int) : Except Fault (Option (List Int)) :=
  match dfp.HasPathTo v with
  | .error f => .error f
  | .ok false => .ok none
  | .ok true =>
    match pathToLoop dfp.edgeTo dfp.s dfp.g.V.toNat v [] with
    | .error f => .error f
    | .ok p =>
      match reverseLoop (p.length + 1) 0 ((p.length : Int) - 1) p with
      | .error f => .error f
      | .ok q => .ok (some q)

end DepthFirstPaths

/-- `NewDepthFirstPaths(g, s)` with the given fuel for the recursion: an error
for a source outside `[0, V)`, otherwise mark the source and run `dfs(s)`. -/
def newDepthFirstPathsFuel (fuel : Nat) (g : Undirected) (s : Int) :
    Except Fault DepthFirstPaths :=
  if s < 0 ∨ s ≥ g.V then .error .error
  else
    match setAt (List.replicate g.V.toNat false) s true with
    | .error f => .error f
    | .ok marked1 =>
      DepthFirstPaths.dfs fuel
        { g := g, s := s, marked := marked1, edgeTo := List.replicate g.V.toNat 0 } s

/-- `NewDepthFirstPaths(g, s)`. The recursion is given depth `V`: every nested
call of `dfs` is on a newly marked vertex. -/
def NewDepthFirstPaths (g : Undirected) (s : Int) : Except Fault DepthFirstPaths :=
  newDepthFirstPathsFuel g.V.toNat g s

/-- Modelled from the spec: the traversal loop of the iterative path finder,
whose source (`NewIterativeDepthFirstPaths`) is not available. The stack holds
work frames `(v, i)`: a vertex and the index of its next neighbour to examine.
While the stack is non-empty the top frame is inspected. If its index is within
the bounds of `Adj(v)`, the neighbour at that index is read and the frame's
index is advanced past it; if that neighbour is unmarked, its predecessor is
recorded, it is marked, and a new frame for it with index 0 is pushed. If the
index has exhausted the neighbours, the frame is popped. Each iteration takes
one unit of fuel. -/
def iterativeLoop : Nat → List (Int × Int) → DepthFirstPaths → Except Fault DepthFirstPaths
  | 0, _, _ => .error .fuel
  | _ + 1, [], dfp => .ok dfp
  | n + 1, (v, i) :: stack, dfp =>
    match dfp.g.Adj v with
    | .error f => .error f
    | .ok ws =>
      if i < ws.length then
        match getAt ws i with
        | .error f => .error f
        | .ok w =>
          match getAt dfp.marked w with
          | .error f => .error f
          | .ok true => iterativeLoop n ((v, i + 1) :: stack) dfp
          | .ok false =>
            match setAt dfp.edgeTo w v with
            | .error f => .error f
            | .ok edgeTo1 =>
              match setAt dfp.marked w true with
              | .error f => .error f
              | .ok marked1 =>
                iterativeLoop n ((w, 0) :: (v, i + 1) :: stack)
                  { dfp with marked := marked1, edgeTo := edgeTo1 }
      else iterativeLoop n stack dfp

/-- Modelled from the spec: the number of loop iterations granted to the
iterative traversal, whose source is not available: one per adjacency entry,
one per vertex to pop its frame, and one to see the empty stack. -/
def iterativeFuel (g : Undirected) : Nat :=
  (g.adj.map fun l => l.length + 1).sum + 1

/-- Modelled from the spec: `NewIterativeDepthFirstPaths(g, s)`, whose source is
not available. It validates the source as the recursive finder does, marks it,
pushes its frame with index 0 and runs the traversal loop. It fills the same
record (`marked`, `edgeTo`) and is queried by the same `HasPathTo` and
`PathTo`. -/
def NewIterativeDepthFirstPaths (g : Undirected) (s : Int) : Except Fault DepthFirstPaths :=
  if s < 0 ∨ s ≥ g.V then .error .error
  else
    match setAt (List.replicate g.V.toNat false) s true with
    | .error f => .error f
    | .ok marked1 =>
      iterativeLoop (iterativeFuel g) [(s, 0)]
        { g := g, s := s, marked := marked1, edgeTo := List.replicate g.V.toNat 0 }


/-! ## Specification predicates -/

/-- The representation invariant of a graph: a non-negative vertex count, one
adjacency slice per vertex, and every stored neighbour a vertex. -/
structure Undirected.WF (g : Undirected) : Prop where
  nonneg : 0 ≤ g.v
  len : g.adj.length = g.v.toNat
  inRange : ∀ l ∈ g.adj, ∀ x ∈ l, 0 ≤ x ∧ x < g.v

/-- The pair `(a, b)` is an edge of `g`: `b` occurs in `g.Adj(a)`. -/
def Undirected.IsEdge (g : Undirected) (a b : Int) : Prop :=
  ∃ l, g.Adj a = .ok l ∧ b ∈ l

/-- The vertex `v` is reachable from `s`: there is a sequence of vertices
`s = x0, x1, ..., xk = v` with `k ≥ 0` in which every `x(i+1)` occurs in
`g.Adj(x(i))`. -/
def Undirected.Reachable (g : Undirected) (s v : Int) : Prop :=
  ∃ p : List Int, p.head? = some s ∧ p.getLast? = some v ∧ p.Chain' g.IsEdge

namespace DepthFirstPaths

/-- The vertex `x` is marked: `marked[x]` is `true`. -/
def Marked (dfp : DepthFirstPaths) (x : Int) : Prop :=
  getAt dfp.marked x = .ok true

/-- The shape of a path finder's record: a well-formed graph and one `marked`
and one `edgeTo` entry per vertex. -/
structure StateWF (dfp : DepthFirstPaths) : Prop where
  graph : dfp.g.WF
  marked_len : dfp.marked.length = dfp.g.v.toNat
  edgeTo_len : dfp.edgeTo.length = dfp.g.v.toNat

/-- The number of vertices not yet marked. -/
def unmarked (dfp : DepthFirstPaths) : Nat :=
  dfp.marked.count false

/-- The predecessor walk from `x`: `q` lists `x`, `edgeTo[x]`, `edgeTo[edgeTo[x]]`,
... down to the source, every step going back along an edge of the graph from a
marked vertex, and no vertex occurring twice. -/
inductive Walk (dfp : DepthFirstPaths) : Int → List Int → Prop
  | source : Walk dfp dfp.s [dfp.s]
  | step {x y : Int} {q : List Int} :
      x ≠ dfp.s → Marked dfp x → getAt dfp.edgeTo x = .ok y → dfp.g.IsEdge y x →
      x ∉ q → Walk dfp y q → Walk dfp x (x :: q)

/-- The invariant of the traversal: the source is marked and every marked
vertex has a predecessor walk to the source. -/
structure TreeInv (dfp : DepthFirstPaths) : Prop where
  source : Marked dfp dfp.s
  walk : ∀ x, Marked dfp x → ∃ q, Walk dfp x q

/-- Every neighbour of `x` is marked. -/
def Closed (dfp : DepthFirstPaths) (x : Int) : Prop :=
  ∀ y, dfp.g.IsEdge x y → Marked dfp y

/-- The record `b` extends `a`: same graph and source, nothing unmarked, and
the predecessor of every vertex marked in `a` kept. -/
structure Ext (a b : DepthFirstPaths) : Prop where
  g_eq : b.g = a.g
  s_eq : b.s = a.s
  mono : ∀ x, Marked a x → Marked b x
  edgeTo_eq : ∀ x, Marked a x → getAt b.edgeTo x = getAt a.edgeTo x
  unmarked_le : b.unmarked ≤ a.unmarked

/-- What a call `dfs(v)` from record `a` establishes in the record `b` it
returns. -/
structure Post (a : DepthFirstPaths) (v : Int) (b : DepthFirstPaths) : Prop where
  ext : Ext a b
  wf : StateWF b
  inv : TreeInv b
  closed_new : ∀ x, Marked b x → ¬ Marked a x → Closed b x
  closed : Closed b v

/-- The function `call` behaves as a call of `dfs` should, on every record with
fewer than `n` unmarked vertices. -/
def CallSpec (call : DepthFirstPaths → Int → Except Fault DepthFirstPaths) (n : Nat) : Prop :=
  ∀ dfp v, StateWF dfp → TreeInv dfp → Marked dfp v → unmarked dfp < n →
    ∃ dfp1, call dfp v = .ok dfp1 ∧ Post dfp v dfp1

/-- The total work left for the unmarked vertices in the explicit-stack
traversal: for each of them one step per neighbour and one to pop its frame. -/
def weight : List Bool → List (List Int) → Nat
  | b :: bs, l :: ls => (if b then 0 else l.length + 1) + weight bs ls
  | _, _ => 0

/-- The work left for the unmarked vertices of a record. -/
def work (dfp : DepthFirstPaths) : Nat :=
  weight dfp.marked dfp.g.adj

end DepthFirstPaths

/-- The explicit-stack loop simulates `call`: whenever `call dfp w` returns
`dfp1`, the loop started with the frame `(w, 0)` on top of any stack reaches
that stack with the record `dfp1`, in a number of iterations bounded by the
work done. -/
def CallSim (call : DepthFirstPaths → Int → Except Fault DepthFirstPaths) : Prop :=
  ∀ dfp w dfp1, call dfp w = .ok dfp1 →
    dfp1.g = dfp.g ∧ ∃ l, dfp.g.Adj w = .ok l ∧
      ∀ stack, ∃ k, k + dfp1.work ≤ l.length + 1 + dfp.work ∧
        ∀ m, iterativeLoop (m + k) ((w, 0) :: stack) dfp = iterativeLoop m stack dfp1

/-! ## Example graphs -/

/-- Four vertices, edges `(0,1)` and `(2,3)`: two components. -/
def graphWithTwoComponents : Undirected :=
  { v := 4, e := 2, adj := [[1], [0], [3], [2]] }

/-- Two vertices, the edge `(0,1)` and the self-loop `(0,0)`. -/
def graphWithSelfLoop : Undirected :=
  { v := 2, e := 2, adj := [[1, 0, 0], [0]] }

/-- Two vertices, the edge `(0,1)` and its parallel edge `(1,0)`. -/
def graphWithParallelEdge : Undirected :=
  { v := 2, e := 2, adj := [[1, 1], [0, 0]] }

/-! ## Further definitions -/

/-- The sum of `len(Adj(u))` over all vertices `u` of `[0, V)`. -/
def adjLengthSum (g : Undirected) : Nat :=
  ((List.range g.V.toNat).map fun (u : Nat) =>
    match g.Adj (Int.ofNat u) with
    | .ok l => l.length
    | .error _ => 0).sum

/-- Eight vertices with the edges `(0,1)(0,6)(0,7)(1,6)(1,2)(1,4)(2,3)(2,4)(3,4)(4,5)`. -/
def graphWithCycles : Undirected :=
  { v := 8, e := 10,
    adj := [[1, 6, 7], [0, 6, 2, 4], [1, 3, 4], [2, 4], [1, 2, 3, 5], [4], [0, 1], [0]] }

/-- The record `NewDepthFirstPaths` returns on `graphWithCycles` from source 0. -/
def pathsWithCycles : DepthFirstPaths :=
  { g := graphWithCycles, s := 0,
    marked := [true, true, true, true, true, true, true, true],
    edgeTo := [0, 0, 1, 2, 3, 4, 1, 0] }

/-- `AddEdge(v, w)` as the update of the receiver it is in the source: the graph
the receiver holds when the call ends, and the panic that ended it, if any.
The two validations come before the first write. -/
def Undirected.AddEdgeInPlace (u : Undirected) (v w : Int) : Undirected × Option Fault :=
  match u.validateVertex v with
  | .error _ => (u, some .panic)
  | .ok _ =>
    match u.validateVertex w with
    | .error _ => (u, some .panic)
    | .ok _ =>
      match getAt u.adj v with
      | .error f => (u, some f)
      | .ok av =>
        match setAt u.adj v (av ++ [w]) with
        | .error f => (u, some f)
        | .ok adj1 =>
          match getAt adj1 w with
          | .error f => ({ v := u.v, e := u.e, adj := adj1 }, some f)
          | .ok aw =>
            match setAt adj1 w (aw ++ [v]) with
            | .error f => ({ v := u.v, e := u.e, adj := adj1 }, some f)
            | .ok adj2 => ({ v := u.v, e := u.e + 1, adj := adj2 }, none)

/-- Go's `strconv.Itoa`, and the verb `%d` of `fmt`: the decimal digits of the
number, after a minus sign when it is negative. -/
def Itoa (i : Int) : List Char :=
  if i < 0 then '-' :: Nat.toDigits 10 i.natAbs else Nat.toDigits 10 i.toNat

/-- The inner loop of `String()`: each neighbour in decimal, then a space. -/
def writeNeighbours : List Int → List Char → List Char
  | [], sb => sb
  | w :: ws, sb => writeNeighbours ws (sb ++ Itoa w ++ [' '])

/-- The outer loop of `String()` over the vertex ids still to be written:
`"<v>: "`, the neighbours of `Adj(v)`, and a newline. -/
def stringLoop (u : Undirected) : List Nat → List Char → Except Fault (List Char)
  | [], sb => .ok sb
  | v :: vs, sb =>
    match u.Adj (Int.ofNat v) with
    | .error f => .error f
    | .ok ws =>
      stringLoop u vs (writeNeighbours ws (sb ++ Itoa (Int.ofNat v) ++ [':', ' ']) ++ ['\n'])

/-- `String()`: the header `"<V> vertices, <E> edges\n"`, then the loop
`for v := 0; v < u.v; v++` over the vertex ids. -/
def Undirected.String (u : Undirected) : Except Fault (List Char) :=
  stringLoop u (List.range u.v.toNat)
    (Itoa u.v ++ " vertices, ".toList ++ Itoa u.e ++ " edges\n".toList)

/-- The line of vertex `u` with neighbours `ws` in the rendering: `"<u>: "`,
each neighbour in decimal followed by one space, and a newline. -/
def vertexLine (u : Int) (ws : List Int) : List Char :=
  Itoa u ++ ": ".toList ++ (ws.map fun w => Itoa w ++ " ".toList).flatten ++ "\n".toList

/-- The rendering of a graph with `V` vertices, `E` edges and adjacency
sequences `adj`: the header line and the vertex lines in increasing order. -/
def rendering (V E : Int) (adj : Int → List Int) : List Char :=
  Itoa V ++ " vertices, ".toList ++ Itoa E ++ " edges\n".toList ++
    ((List.range V.toNat).map fun (u : Nat) => vertexLine (Int.ofNat u) (adj (Int.ofNat u))).flatten

/-- The neighbours `Adj(u)` returns, and no neighbours when it panics. -/
def Undirected.adjOf (g : Undirected) (u : Int) : List Int :=
  match g.Adj u with
  | .ok l => l
  | .error _ => []

/-- Eight vertices with the edges `(0,1)(0,6)(0,7)(1,6)(1,2)(1,4)`. -/
def graphWithEdges : Undirected :=
  { v := 8, e := 6, adj := [[1, 6, 7], [0, 6, 2, 4], [1], [], [1], [], [0, 1], [0]] }

/-! ## The reader

The input text is a list of characters, one per byte of the input. -/

/-- The largest buffer of a `bufio.Scanner`, `bufio.MaxScanTokenSize`: a line
that does not fit, with its newline, ends the scan. -/
def maxScanTokenSize : Nat := 65536

/-- The `dropCR` of `bufio.ScanLines`: one trailing carriage return is dropped. -/
def dropCR (l : List Char) : List Char :=
  if l.getLast? = some '\r' then l.dropLast else l

/-- The lines successive calls of `Scan()` deliver, with `cur` the part of the
current line already seen: lines end at a newline, the last line may lack it,
an empty rest is no line, and the scan stops for good at a line too long for
the buffer (`Scan()` returns false and `Err()` is `ErrTooLong`). For a last
line without a newline the bound is that of a reader reporting the end of the
input after its last byte, as `strings.Reader` and files do. -/
def scanLinesFrom : List Char → List Char → List (List Char)
  | [], cur =>
    if cur = [] then []
    else if maxScanTokenSize ≤ cur.length then []
    else [dropCR cur]
  | c :: cs, cur =>
    if c = '\n' then
      if maxScanTokenSize ≤ cur.length then []
      else dropCR cur :: scanLinesFrom cs []
    else scanLinesFrom cs (cur ++ [c])

/-- The lines a `bufio.Scanner` with the default split function delivers. -/
def scanLines (r : List Char) : List (List Char) :=
  scanLinesFrom r []

/-- The value of a decimal digit. -/
def digitValue (c : Char) : Option Nat :=
  if '0' ≤ c ∧ c ≤ '9' then some (c.toNat - '0'.toNat) else none

/-- The value of a sequence of decimal digits read after the value `n`. -/
def parseDigits : List Char → Nat → Option Nat
  | [], n => some n
  | c :: cs, n =>
    match digitValue c with
    | none => none
    | some d => parseDigits cs (n * 10 + d)

/-- The digits of a signed numeral and whether it is negative. -/
def splitSign : List Char → Bool × List Char
  | '-' :: ds => (true, ds)
  | '+' :: ds => (false, ds)
  | ds => (false, ds)

/-- Go's `strconv.Atoi` on a 64-bit platform: an optional sign, then one or
more decimal digits, of a value within `[-2^63, 2^63 - 1]`; anything else is an
error. -/
def Atoi (s : List Char) : Except Fault Int :=
  match splitSign s with
  | (_, []) => .error .error
  | (neg, ds) =>
    match parseDigits ds 0 with
    | none => .error .error
    | some n =>
      if neg then
        if n ≤ 9223372036854775808 then .ok (-(n : Int)) else .error .error
      else
        if n < 9223372036854775808 then .ok (n : Int) else .error .error

/-- Go's `strings.Split(t, " ")`: the pieces of `t` between its spaces. -/
def splitSpace : List Char → List (List Char)
  | [] => [[]]
  | c :: cs =>
    match splitSpace cs with
    | [] => [[]]
    | p :: ps => if c = ' ' then [] :: p :: ps else (c :: p) :: ps

/-- The loop `for s.Scan()` of `NewUndirectedFromReader` over the lines still to
be read: split the line at its spaces, parse and validate both vertices, add
the edge, count it. It returns the graph and the number of edges read. The
test of `err` after `AddEdge` sees the nil error of the last `Atoi` and never
fires; the loop ends when `Scan()` returns false, and `Err()` is not asked. -/
def readEdges (u : Undirected) : List (List Char) → Int → Except Fault (Undirected × Int)
  | [], edges => .ok (u, edges)
  | t :: ts, edges =>
    match splitSpace t with
    | [a, b] =>
      match Atoi a with
      | .error _ => .error .error
      | .ok v =>
        match u.validateVertex v with
        | .error _ => .error .error
        | .ok _ =>
          match Atoi b with
          | .error _ => .error .error
          | .ok w =>
            match u.validateVertex w with
            | .error _ => .error .error
            | .ok _ =>
              match u.AddEdge v w with
              | .error f => .error f
              | .ok u1 => readEdges u1 ts (edges + 1)
    | _ => .error .error

/-- `NewUndirectedFromReader` on the lines the scanner delivers: the number of
vertices, the number of edges, then the edges. -/
def newUndirectedFromLines : List (List Char) → Except Fault Undirected
  | [] => .error .error
  | t :: rest =>
    match Atoi t with
    | .error _ => .error .error
    | .ok v =>
      if v < 0 then .error .error
      else
        match rest with
        | [] => .error .error
        | t :: rest =>
          match Atoi t with
          | .error _ => .error .error
          | .ok e =>
            if e < 0 then .error .error
            else
              match readEdges { v := v, e := 0, adj := List.replicate v.toNat [] } rest 0 with
              | .error f => .error f
              | .ok (u, edges) => if edges ≠ e then .error .error else .ok u

/-- `NewUndirectedFromReader(r)` on the text `r` the reader holds. -/
def NewUndirectedFromReader (r : List Char) : Except Fault Undirected :=
  newUndirectedFromLines (scanLines r)

/-- The line of an edge in the text format: the two vertices in decimal with a
single space between them. -/
def edgeLine (e : Int × Int) : List Char :=
  Itoa e.1 ++ ' ' :: Itoa e.2

/-- The lines of the text of a graph: the decimal `V`, the decimal number of
edges, and one line per edge in order. -/
def graphLines (V : Int) (es : List (Int × Int)) : List (List Char) :=
  Itoa V :: Itoa (es.length : Int) :: es.map edgeLine

/-- The text with the given lines, a newline between every two of them. -/
def joinLines : List (List Char) → List Char
  | [] => []
  | [l] => l
  | l :: l1 :: ls => l ++ '\n' :: joinLines (l1 :: ls)

/-- A line the scanner delivers unchanged: not empty, without a newline, not
ending in a carriage return, and short enough for the buffer. -/
def CleanLine (l : List Char) : Prop :=
  l ≠ [] ∧ '\n' ∉ l ∧ l.getLast? ≠ some '\r' ∧ l.length < maxScanTokenSize

namespace DepthFirstPaths

/-- The loop of `dfs(v)` with a counter of the calls of `dfs` made so far. -/
def dfsLoopCalls (call : DepthFirstPaths → Int → Except Fault (DepthFirstPaths × Nat))
    (v : Int) : List Int → DepthFirstPaths → Nat → Except Fault (DepthFirstPaths × Nat)
  | [], dfp, c => .ok (dfp, c)
  | w :: ws, dfp, c =>
    match getAt dfp.marked w with
    | .error f => .error f
    | .ok true => dfsLoopCalls call v ws dfp c
    | .ok false =>
      match setAt dfp.edgeTo w v with
      | .error f => .error f
      | .ok edgeTo1 =>
        match setAt dfp.marked w true with
        | .error f => .error f
        | .ok marked1 =>
          match call { dfp with marked := marked1, edgeTo := edgeTo1 } w with
          | .error f => .error f
          | .ok (dfp1, c1) => dfsLoopCalls call v ws dfp1 (c + c1)

/-- `dfs(v)` returning, with the record, the number of calls of `dfs` made, this
one included. -/
def dfsCalls : Nat → DepthFirstPaths → Int → Except Fault (DepthFirstPaths × Nat)
  | 0, _, _ => .error .fuel
  | n + 1, dfp, v =>
    match dfp.g.Adj v with
    | .error f => .error f
    | .ok ws => dfsLoopCalls (dfsCalls n) v ws dfp 1

end DepthFirstPaths

/-- `NewDepthFirstPaths(g, s)` returning, with the finder, the number of calls
of `dfs` made. -/
def newDepthFirstPathsCalls (g : Undirected) (s : Int) :
    Except Fault (DepthFirstPaths × Nat) :=
  if s < 0 ∨ s ≥ g.V then .error .error
  else
    match setAt (List.replicate g.V.toNat false) s true with
    | .error f => .error f
    | .ok marked1 =>
      DepthFirstPaths.dfsCalls g.V.toNat
        { g := g, s := s, marked := marked1, edgeTo := List.replicate g.V.toNat 0 } s

/-! ## The order of paths -/

/-- The encoding of a path `x0, x1, ..., xk`: the positions `p1, ..., pk`, with
`pi` the index of the first occurrence of `xi` in `Adj(x(i-1))`. -/
def encodePath (g : Undirected) : List Int → List Nat
  | a :: b :: rest => (g.adjOf a).indexOf b :: encodePath g (b :: rest)
  | _ => []

/-- The lexicographic order on sequences of positions: `lexLe a b` when `a` is
a prefix of `b` or is smaller at the first position where they differ. -/
def lexLe : List Nat → List Nat → Prop
  | [], _ => True
  | _ :: _, [] => False
  | a :: as, b :: bs => a < b ∨ (a = b ∧ lexLe as bs)

/-- A repetition-free path from `s` to `v` in `g`. -/
structure Undirected.IsSimplePath (g : Undirected) (s v : Int) (p : List Int) : Prop where
  head : p.head? = some s
  last : p.getLast? = some v
  chain : p.Chain' g.IsEdge
  nodup : p.Nodup

namespace DepthFirstPaths

/-- A repetition-free path from `v` to `x` that, after `v`, visits only vertices
not marked in the record. -/
structure FreshPath (dfp : DepthFirstPaths) (v x : Int) (P : List Int) : Prop where
  head : P.head? = some v
  last : P.getLast? = some x
  chain : P.Chain' dfp.g.IsEdge
  nodup : P.Nodup
  fresh : ∀ y ∈ P.tail, ¬ Marked dfp y

/-- What a call `dfs(v)` from record `a` establishes in the record `b` about
the order of paths: every vertex `x` it marks has its predecessor walk through
`v`, and the part of that walk from `v` to `x` is first, in the order of the
encodings, among the repetition-free paths from `v` to `x` that avoid the
vertices marked in `a`. -/
def LexPost (a : DepthFirstPaths) (v : Int) (b : DepthFirstPaths) : Prop :=
  ∀ x, Marked b x → ¬ Marked a x → ∀ qv, Walk a v qv →
    ∃ r, Walk b x (r ++ qv) ∧
      ∀ P, FreshPath a v x P → lexLe (encodePath a.g (v :: r.reverse)) (encodePath a.g P)

/-- The function `call` behaves as a call of `dfs` should, the order of paths
included, on every record with fewer than `n` unmarked vertices. -/
def CallLex (call : DepthFirstPaths → Int → Except Fault DepthFirstPaths) (n : Nat) : Prop :=
  ∀ dfp v, StateWF dfp → TreeInv dfp → Marked dfp v → unmarked dfp < n →
    ∃ dfp1, call dfp v = .ok dfp1 ∧ Post dfp v dfp1 ∧ LexPost dfp v dfp1

end DepthFirstPaths

/-! ## Slice indexing -/

section Indexing
variable {α : Type}

theorem getAt_of_lt {l : List α} {i : Int} (h0 : 0 ≤ i) (h : i.toNat < l.length) :
    getAt l i = .ok (l.get ⟨i.toNat, h⟩) := by
  unfold getAt
  rw [if_neg (by omega)]
  simp [List.getElem?_eq_getElem h]

theorem getAt_eq_ok {l : List α} {i : Int} {a : α} (h : getAt l i = .ok a) :
    0 ≤ i ∧ i.toNat < l.length ∧ l[i.toNat]? = some a := by
  unfold getAt at h
  split at h
  · cases h
  · rename_i hi
    split at h
    · rename_i b hb
      cases h
      refine ⟨by omega, ?_, hb⟩
      exact (List.getElem?_eq_some_iff.mp hb).1
    · cases h

theorem getAt_error {l : List α} {i : Int} {f : Fault} (h : getAt l i = .error f) :
    f = .panic ∧ (i < 0 ∨ l.length ≤ i.toNat) := by
  unfold getAt at h
  split at h
  · cases h; exact ⟨rfl, Or.inl ‹_›⟩
  · split at h
    · cases h
    · rename_i hn
      cases h
      exact ⟨rfl, Or.inr (List.getElem?_eq_none_iff.mp hn)⟩

theorem setAt_of_lt {l : List α} {i : Int} (a : α) (h0 : 0 ≤ i) (h : i.toNat < l.length) :
    setAt l i a = .ok (l.set i.toNat a) := by
  unfold setAt
  rw [if_neg (by omega), if_pos h]

theorem setAt_eq_ok {l l1 : List α} {i : Int} {a : α} (h : setAt l i a = .ok l1) :
    0 ≤ i ∧ i.toNat < l.length ∧ l1 = l.set i.toNat a := by
  unfold setAt at h
  split at h
  · cases h
  · split at h
    · cases h; exact ⟨by omega, ‹_›, rfl⟩
    · cases h

theorem getAt_set_self {l : List α} {i : Int} (a : α) (h0 : 0 ≤ i) (h : i.toNat < l.length) :
    getAt (l.set i.toNat a) i = .ok a := by
  rw [getAt_of_lt h0 (by simpa using h)]
  simp

theorem getAt_set_ne {l : List α} {i j : Int} (a : α) (h0 : 0 ≤ i) (hne : i ≠ j) :
    getAt (l.set i.toNat a) j = getAt l j := by
  unfold getAt
  by_cases hj : j < 0
  · simp [hj]
  · have : i.toNat ≠ j.toNat := by omega
    simp [hj, List.getElem?_set_ne this]

end Indexing

/-! ## The graph type -/

namespace Undirected

theorem validateVertex_of_inRange {g : Undirected} {x : Int} (h0 : 0 ≤ x) (h1 : x < g.v) :
    g.validateVertex x = .ok () := by
  unfold validateVertex V
  rw [if_neg (by omega)]

theorem validateVertex_eq_ok {g : Undirected} {x : Int} {u : Unit}
    (h : g.validateVertex x = .ok u) : 0 ≤ x ∧ x < g.v := by
  unfold validateVertex V at h
  split at h
  · cases h
  · omega

theorem validateVertex_error {g : Undirected} {x : Int} {f : Fault}
    (h : g.validateVertex x = .error f) : x < 0 ∨ g.v ≤ x := by
  unfold validateVertex V at h
  split at h
  · omega
  · cases h

theorem Adj_of_inRange {g : Undirected} {x : Int} (h0 : 0 ≤ x) (h1 : x < g.v) :
    g.Adj x = getAt g.adj x := by
  unfold Adj
  rw [validateVertex_of_inRange h0 h1]

theorem Adj_eq_ok {g : Undirected} {x : Int} {l : List Int} (h : g.Adj x = .ok l) :
    0 ≤ x ∧ x < g.v ∧ getAt g.adj x = .ok l := by
  unfold Adj at h
  split at h
  · cases h
  · rename_i u hu
    exact ⟨(validateVertex_eq_ok hu).1, (validateVertex_eq_ok hu).2, h⟩

theorem WF.Adj_ok {g : Undirected} (hg : g.WF) {x : Int} (h0 : 0 ≤ x) (h1 : x < g.v) :
    ∃ l, g.Adj x = .ok l ∧ l ∈ g.adj := by
  have hlt : x.toNat < g.adj.length := by rw [hg.len]; omega
  refine ⟨g.adj.get ⟨x.toNat, hlt⟩, ?_, List.get_mem _ _ _⟩
  rw [Adj_of_inRange h0 h1, getAt_of_lt h0 hlt]

theorem WF.mem_adj_of_Adj {g : Undirected} {x : Int} {l : List Int} (h : g.Adj x = .ok l) :
    l ∈ g.adj := by
  obtain ⟨-, -, h⟩ := Adj_eq_ok h
  exact List.getElem?_mem (getAt_eq_ok h).2.2

/-- What a successful `AddEdge` returns. -/
theorem AddEdge_eq_ok {g g1 : Undirected} {v w : Int} (h : g.AddEdge v w = .ok g1) :
    (0 ≤ v ∧ v < g.v) ∧ (0 ≤ w ∧ w < g.v) ∧ v.toNat < g.adj.length ∧ w.toNat < g.adj.length ∧
    ∃ av aw, getAt g.adj v = .ok av ∧ getAt (g.adj.set v.toNat (av ++ [w])) w = .ok aw ∧
      g1 = { v := g.v, e := g.e + 1,
             adj := (g.adj.set v.toNat (av ++ [w])).set w.toNat (aw ++ [v]) } := by
  unfold AddEdge at h
  split at h
  · cases h
  · rename_i u1 hv
    split at h
    · cases h
    · rename_i u2 hw
      split at h
      · cases h
      · rename_i av hav
        split at h
        · cases h
        · rename_i adj1 h1
          obtain ⟨-, hvl, rfl⟩ := setAt_eq_ok h1
          split at h
          · cases h
          · rename_i aw haw
            split at h
            · cases h
            · rename_i adj2 h2
              obtain ⟨-, hwl, rfl⟩ := setAt_eq_ok h2
              cases h
              exact ⟨validateVertex_eq_ok hv, validateVertex_eq_ok hw, hvl,
                by simpa using hwl, av, aw, hav, haw, rfl⟩

/-- `AddEdge` succeeds on a well-formed graph when both endpoints are vertices. -/
theorem WF.AddEdge_ok {g : Undirected} (hg : g.WF) {v w : Int}
    (hv : 0 ≤ v ∧ v < g.v) (hw : 0 ≤ w ∧ w < g.v) : ∃ g1, g.AddEdge v w = .ok g1 := by
  have hvl : v.toNat < g.adj.length := by rw [hg.len]; omega
  have hwl : w.toNat < g.adj.length := by rw [hg.len]; omega
  unfold AddEdge
  rw [validateVertex_of_inRange hv.1 hv.2, validateVertex_of_inRange hw.1 hw.2]
  simp only [getAt_of_lt hv.1 hvl, setAt_of_lt _ hv.1 hvl]
  have hwl1 : w.toNat < (g.adj.set v.toNat (g.adj.get ⟨v.toNat, hvl⟩ ++ [w])).length := by
    simpa using hwl
  simp only [getAt_of_lt hw.1 hwl1, setAt_of_lt _ hw.1 hwl1]
  exact ⟨_, rfl⟩

/-- The adjacency slices after `AddEdge(v, w)`: the slice of `u` gains `w` when
`u = v` and then `v` when `u = w`. -/
theorem AddEdge_getAt {g g1 : Undirected} {v w : Int} (h : g.AddEdge v w = .ok g1) (u : Int) :
    getAt g1.adj u = (getAt g.adj u).map
      (fun l => l ++ (if v = u then [w] else []) ++ (if w = u then [v] else [])) := by
  obtain ⟨hv, hw, hvl, hwl, av, aw, hav, haw, rfl⟩ := AddEdge_eq_ok h
  have hwl1 : w.toNat < (g.adj.set v.toNat (av ++ [w])).length := by simpa using hwl
  by_cases huw : w = u
  · subst huw
    rw [getAt_set_self _ hw.1 hwl1]
    by_cases hvw : v = w
    · subst hvw
      rw [getAt_set_self _ hv.1 hvl] at haw
      cases haw
      simp [hav, Except.map]
    · rw [getAt_set_ne _ hv.1 hvw] at haw
      simp [haw, hvw, Except.map]
  · rw [getAt_set_ne _ hw.1 huw]
    by_cases hvu : v = u
    · subst hvu
      rw [getAt_set_self _ hv.1 hvl]
      simp [hav, huw, Except.map]
    · rw [getAt_set_ne _ hv.1 hvu]
      cases getAt g.adj u <;> simp [hvu, huw, Except.map]

theorem AddEdge_v {g g1 : Undirected} {v w : Int} (h : g.AddEdge v w = .ok g1) : g1.v = g.v := by
  obtain ⟨-, -, -, -, av, aw, -, -, rfl⟩ := AddEdge_eq_ok h
  rfl

theorem AddEdge_e {g g1 : Undirected} {v w : Int} (h : g.AddEdge v w = .ok g1) :
    g1.e = g.e + 1 := by
  obtain ⟨-, -, -, -, av, aw, -, -, rfl⟩ := AddEdge_eq_ok h
  rfl

theorem AddEdge_Adj {g g1 : Undirected} {v w : Int} (h : g.AddEdge v w = .ok g1) (u : Int) :
    g1.Adj u = (g.Adj u).map
      (fun l => l ++ (if v = u then [w] else []) ++ (if w = u then [v] else [])) := by
  unfold Adj
  have hv : g1.validateVertex u = g.validateVertex u := by
    unfold validateVertex V
    rw [AddEdge_v h]
  rw [hv]
  cases g.validateVertex u with
  | error f => rfl
  | ok _ => exact AddEdge_getAt h u

theorem WF.AddEdge {g g1 : Undirected} (hg : g.WF) {v w : Int} (h : g.AddEdge v w = .ok g1) :
    g1.WF := by
  obtain ⟨hv, hw, hvl, hwl, av, aw, hav, haw, rfl⟩ := AddEdge_eq_ok h
  have hav1 : av ∈ g.adj := List.getElem?_mem (getAt_eq_ok hav).2.2
  have h1 : ∀ l ∈ g.adj.set v.toNat (av ++ [w]), ∀ x ∈ l, 0 ≤ x ∧ x < g.v := by
    intro l hl x hx
    rcases List.mem_or_eq_of_mem_set hl with hl | rfl
    · exact hg.inRange l hl x hx
    · rcases List.mem_append.mp hx with hx | hx
      · exact hg.inRange av hav1 x hx
      · simp at hx; subst hx; exact hw
  have haw1 : aw ∈ g.adj.set v.toNat (av ++ [w]) := List.getElem?_mem (getAt_eq_ok haw).2.2
  refine ⟨hg.nonneg, by simpa using hg.len, ?_⟩
  intro l hl x hx
  rcases List.mem_or_eq_of_mem_set hl with hl | rfl
  · exact h1 l hl x hx
  · rcases List.mem_append.mp hx with hx | hx
    · exact h1 aw haw1 x hx
    · simp at hx; subst hx; exact hv

theorem NewUndirected_eq_ok {V : Int} {g : Undirected} (h : NewUndirected V = .ok g) :
    0 ≤ V ∧ g = { v := V, e := 0, adj := List.replicate V.toNat [] } := by
  unfold NewUndirected at h
  split at h
  · cases h
  · cases h; exact ⟨by omega, rfl⟩

theorem WF.new {V : Int} {g : Undirected} (h : NewUndirected V = .ok g) : g.WF := by
  obtain ⟨h0, rfl⟩ := NewUndirected_eq_ok h
  refine ⟨h0, by simp, ?_⟩
  intro l hl x hx
  rw [List.eq_of_mem_replicate hl] at hx
  cases hx

theorem WF.addEdges {es : List (Int × Int)} :
    ∀ {g g1 : Undirected}, g.WF → g.addEdges es = .ok g1 → g1.WF := by
  induction es with
  | nil => intro g g1 hg h; cases h; exact hg
  | cons e es ih =>
    intro g g1 hg h
    obtain ⟨v, w⟩ := e
    unfold Undirected.addEdges at h
    split at h
    · cases h
    · rename_i g2 h2
      exact ih (hg.AddEdge h2) h

end Undirected

theorem buildGraph_WF {V : Int} {es : List (Int × Int)} {g : Undirected}
    (h : buildGraph V es = .ok g) : g.WF := by
  unfold buildGraph at h
  split at h
  · cases h
  · rename_i g0 h0
    exact (Undirected.WF.new h0).addEdges h


namespace Undirected

theorem addEdges_eq_ok {es : List (Int × Int)} :
    ∀ {g g1 : Undirected}, g.addEdges es = .ok g1 →
      g1.v = g.v ∧ g1.e = g.e + es.length ∧
      (∀ e ∈ es, (0 ≤ e.1 ∧ e.1 < g.v) ∧ (0 ≤ e.2 ∧ e.2 < g.v)) ∧
      ∀ u, g1.Adj u = (g.Adj u).map (fun l => l ++ insertionOrderAdj u es) := by
  induction es with
  | nil =>
    intro g g1 h
    cases h
    refine ⟨rfl, by simp, by simp, fun u => ?_⟩
    cases g.Adj u <;> simp [Except.map, insertionOrderAdj]
  | cons e es ih =>
    intro g g1 h
    obtain ⟨v, w⟩ := e
    unfold Undirected.addEdges at h
    split at h
    · cases h
    · rename_i g2 h2
      obtain ⟨hv, he, hr, hadj⟩ := ih h
      obtain ⟨hv2, hw2, -⟩ := AddEdge_eq_ok h2
      rw [AddEdge_v h2] at hv hr
      rw [AddEdge_e h2] at he
      refine ⟨hv, by rw [he]; simp; omega, ?_, fun u => ?_⟩
      · intro e he
        rcases List.mem_cons.mp he with rfl | he
        · exact ⟨hv2, hw2⟩
        · exact hr e he
      · rw [hadj u, AddEdge_Adj h2 u]
        cases g.Adj u <;> simp [Except.map, insertionOrderAdj]

theorem WF.addEdges_ok {es : List (Int × Int)} :
    ∀ {g : Undirected}, g.WF →
      (∀ e ∈ es, (0 ≤ e.1 ∧ e.1 < g.v) ∧ (0 ≤ e.2 ∧ e.2 < g.v)) →
      ∃ g1, g.addEdges es = .ok g1 := by
  induction es with
  | nil => intro g _ _; exact ⟨g, rfl⟩
  | cons e es ih =>
    intro g hg hes
    obtain ⟨v, w⟩ := e
    obtain ⟨g2, h2⟩ := hg.AddEdge_ok (hes (v, w) (List.mem_cons_self _ _)).1
      (hes (v, w) (List.mem_cons_self _ _)).2
    have hes2 : ∀ e ∈ es, (0 ≤ e.1 ∧ e.1 < g2.v) ∧ (0 ≤ e.2 ∧ e.2 < g2.v) := by
      intro e he
      rw [AddEdge_v h2]
      exact hes e (List.mem_cons_of_mem _ he)
    obtain ⟨g1, h1⟩ := ih (hg.AddEdge h2) hes2
    exact ⟨g1, by unfold Undirected.addEdges; rw [h2]; exact h1⟩

end Undirected

theorem buildGraph_eq_ok {V : Int} {es : List (Int × Int)} {g : Undirected}
    (h : buildGraph V es = .ok g) :
    0 ≤ V ∧ g.v = V ∧ g.e = es.length ∧
    (∀ e ∈ es, (0 ≤ e.1 ∧ e.1 < V) ∧ (0 ≤ e.2 ∧ e.2 < V)) ∧
    ∀ u, 0 ≤ u → u < V → g.Adj u = .ok (insertionOrderAdj u es) := by
  unfold buildGraph at h
  split at h
  · cases h
  · rename_i g0 h0
    obtain ⟨hV, rfl⟩ := Undirected.NewUndirected_eq_ok h0
    obtain ⟨hv, he, hr, hadj⟩ := Undirected.addEdges_eq_ok h
    refine ⟨hV, hv, by simpa using he, hr, fun u hu0 hu1 => ?_⟩
    rw [hadj u, Undirected.Adj_of_inRange hu0 hu1,
      getAt_of_lt hu0 (by simp; omega)]
    simp [Except.map]

theorem buildGraph_ok {V : Int} {es : List (Int × Int)} (hV : 0 ≤ V)
    (hes : ∀ e ∈ es, (0 ≤ e.1 ∧ e.1 < V) ∧ (0 ≤ e.2 ∧ e.2 < V)) :
    ∃ g, buildGraph V es = .ok g := by
  unfold buildGraph NewUndirected
  rw [if_neg (by omega)]
  exact Undirected.WF.addEdges_ok (Undirected.WF.new (V := V) (by
    unfold NewUndirected; rw [if_neg (by omega)])) hes

/-! ## The traversal -/

namespace DepthFirstPaths

theorem count_false_set_true :
    ∀ (l : List Bool) (i : Nat), l[i]? = some false →
      (l.set i true).count false + 1 = l.count false := by
  intro l
  induction l with
  | nil => intro i h; simp at h
  | cons b bs ih =>
    intro i h
    cases i with
    | zero =>
      simp at h
      subst h
      simp
    | succ i =>
      simp at h
      have := ih i h
      cases b <;> simp [List.count_cons] <;> omega

theorem Ext.refl (a : DepthFirstPaths) : Ext a a :=
  ⟨rfl, rfl, fun _ h => h, fun _ _ => rfl, le_refl _⟩

theorem Ext.trans {a b c : DepthFirstPaths} (h1 : Ext a b) (h2 : Ext b c) : Ext a c :=
  ⟨h2.g_eq.trans h1.g_eq, h2.s_eq.trans h1.s_eq, fun x h => h2.mono x (h1.mono x h),
    fun x h => (h2.edgeTo_eq x (h1.mono x h)).trans (h1.edgeTo_eq x h),
    le_trans h2.unmarked_le h1.unmarked_le⟩

theorem Walk.extend {a b : DepthFirstPaths} (h : Ext a b) {x : Int} {q : List Int}
    (hw : Walk a x q) : Walk b x q := by
  induction hw with
  | source => rw [← h.s_eq]; exact Walk.source
  | step hne hm he hedge hnot _ ih =>
    refine Walk.step (by rw [h.s_eq]; exact hne) (h.mono _ hm) ?_ ?_ hnot ih
    · rw [h.edgeTo_eq _ hm]; exact he
    · rw [h.g_eq]; exact hedge

theorem Walk.marked {a : DepthFirstPaths} (hs : Marked a a.s) {x : Int} {q : List Int}
    (hw : Walk a x q) : ∀ y ∈ q, Marked a y := by
  induction hw with
  | source => intro y hy; simp at hy; subst hy; exact hs
  | step _ hm _ _ _ _ ih =>
    intro y hy
    rcases List.mem_cons.mp hy with rfl | hy
    · exact hm
    · exact ih y hy

theorem Closed.mono {a b : DepthFirstPaths} (h : Ext a b) {x : Int} (hc : Closed a x) :
    Closed b x := by
  intro y hy
  rw [h.g_eq] at hy
  exact h.mono y (hc y hy)

theorem IsEdge_inRange {g : Undirected} (hg : g.WF) {a b : Int} (h : g.IsEdge a b) :
    (0 ≤ a ∧ a < g.v) ∧ (0 ≤ b ∧ b < g.v) := by
  obtain ⟨l, hl, hb⟩ := h
  obtain ⟨h0, h1, -⟩ := Undirected.Adj_eq_ok hl
  exact ⟨⟨h0, h1⟩, hg.inRange l (Undirected.WF.mem_adj_of_Adj hl) b hb⟩

/-- Marking a fresh neighbour `w` of the marked vertex `v` and recording `v` as
its predecessor keeps the invariants. -/
theorem mark_step {dfp : DepthFirstPaths} (hwf : StateWF dfp) (hinv : TreeInv dfp)
    {v w : Int} (hv : Marked dfp v) (hvw : dfp.g.IsEdge v w)
    (hw : getAt dfp.marked w = .ok false) :
    ∃ e1 m1, setAt dfp.edgeTo w v = .ok e1 ∧ setAt dfp.marked w true = .ok m1 ∧
      Ext dfp { dfp with marked := m1, edgeTo := e1 } ∧
      StateWF { dfp with marked := m1, edgeTo := e1 } ∧
      TreeInv { dfp with marked := m1, edgeTo := e1 } ∧
      Marked { dfp with marked := m1, edgeTo := e1 } w ∧
      unmarked { dfp with marked := m1, edgeTo := e1 } + 1 = unmarked dfp ∧
      ∀ x, Marked { dfp with marked := m1, edgeTo := e1 } x → x = w ∨ Marked dfp x := by
  obtain ⟨-, hwr⟩ := IsEdge_inRange hwf.graph hvw
  have hwm : w.toNat < dfp.marked.length := by rw [hwf.marked_len]; omega
  have hwe : w.toNat < dfp.edgeTo.length := by rw [hwf.edgeTo_len]; omega
  have hcount : unmarked ⟨dfp.g, dfp.s, dfp.marked.set w.toNat true,
      dfp.edgeTo.set w.toNat v⟩ + 1 = unmarked dfp :=
    count_false_set_true _ _ (getAt_eq_ok hw).2.2
  have hnw : ¬ Marked dfp w := by
    intro h; unfold Marked at h; rw [hw] at h; cases h
  have hext : Ext dfp ⟨dfp.g, dfp.s, dfp.marked.set w.toNat true,
      dfp.edgeTo.set w.toNat v⟩ := by
    refine ⟨rfl, rfl, ?_, ?_, by omega⟩
    · intro x hx
      have hne : w ≠ x := by rintro rfl; exact hnw hx
      show getAt (dfp.marked.set w.toNat true) x = .ok true
      rw [getAt_set_ne _ hwr.1 hne]; exact hx
    · intro x hx
      have hne : w ≠ x := by rintro rfl; exact hnw hx
      show getAt (dfp.edgeTo.set w.toNat v) x = getAt dfp.edgeTo x
      rw [getAt_set_ne _ hwr.1 hne]
  have hmw : Marked ⟨dfp.g, dfp.s, dfp.marked.set w.toNat true,
      dfp.edgeTo.set w.toNat v⟩ w := getAt_set_self _ hwr.1 hwm
  refine ⟨_, _, setAt_of_lt _ hwr.1 hwe, setAt_of_lt _ hwr.1 hwm, hext,
    ⟨hwf.graph, by simpa using hwf.marked_len, by simpa using hwf.edgeTo_len⟩, ?_, hmw,
    hcount, ?_⟩
  · refine ⟨hext.mono _ hinv.source, ?_⟩
    intro x hx
    by_cases hxw : x = w
    · subst hxw
      obtain ⟨q, hq⟩ := hinv.walk v hv
      refine ⟨x :: q, Walk.step ?_ hmw (getAt_set_self _ hwr.1 hwe) hvw ?_ (hq.extend hext)⟩
      · intro hxs
        have hxs' : x = dfp.s := hxs
        exact hnw (hxs' ▸ hinv.source)
      · intro hmem; exact hnw (hq.marked hinv.source x hmem)
    · have hx' : Marked dfp x := by
        have : getAt (dfp.marked.set w.toNat true) x = .ok true := hx
        rwa [getAt_set_ne _ hwr.1 (Ne.symm hxw)] at this
      obtain ⟨q, hq⟩ := hinv.walk x hx'
      exact ⟨q, hq.extend hext⟩
  · intro x hx
    by_cases hxw : x = w
    · exact Or.inl hxw
    · right
      have : getAt (dfp.marked.set w.toNat true) x = .ok true := hx
      rwa [getAt_set_ne _ hwr.1 (Ne.symm hxw)] at this

end DepthFirstPaths

namespace DepthFirstPaths

theorem Marked.inRange {dfp : DepthFirstPaths} (hwf : StateWF dfp) {x : Int}
    (h : Marked dfp x) : 0 ≤ x ∧ x < dfp.g.v := by
  obtain ⟨h0, h1, -⟩ := getAt_eq_ok h
  rw [hwf.marked_len] at h1
  omega

/-- The loop of `dfs(v)` over neighbours `ws` of `v`, given that the recursive
calls behave: it returns, keeps the invariants, leaves every newly marked
vertex closed and all of `ws` marked. -/
theorem dfsLoop_spec {call : DepthFirstPaths → Int → Except Fault DepthFirstPaths} {n : Nat}
    (hcall : CallSpec call n) (v : Int) :
    ∀ (ws : List Int) (dfp : DepthFirstPaths), StateWF dfp → TreeInv dfp → Marked dfp v →
      (∀ w ∈ ws, dfp.g.IsEdge v w) → unmarked dfp ≤ n →
      ∃ dfp1, dfsLoop call v ws dfp = .ok dfp1 ∧ Ext dfp dfp1 ∧ StateWF dfp1 ∧ TreeInv dfp1 ∧
        (∀ x, Marked dfp1 x → ¬ Marked dfp x → Closed dfp1 x) ∧ ∀ w ∈ ws, Marked dfp1 w := by
  intro ws
  induction ws with
  | nil =>
    intro dfp hwf hinv _ _ _
    exact ⟨dfp, rfl, Ext.refl dfp, hwf, hinv, fun x h1 h2 => absurd h1 h2, by simp⟩
  | cons w ws ih =>
    intro dfp hwf hinv hv hws hn
    have hvw : dfp.g.IsEdge v w := hws w (List.mem_cons_self _ _)
    obtain ⟨-, hwr⟩ := IsEdge_inRange hwf.graph hvw
    have hwm : w.toNat < dfp.marked.length := by rw [hwf.marked_len]; omega
    have hget := getAt_of_lt hwr.1 hwm
    cases hb : dfp.marked.get ⟨w.toNat, hwm⟩ with
    | true =>
      rw [hb] at hget
      obtain ⟨dfp1, h1, hext, hwf1, hinv1, hnew, hall⟩ :=
        ih dfp hwf hinv hv (fun x hx => hws x (List.mem_cons_of_mem _ hx)) hn
      refine ⟨dfp1, ?_, hext, hwf1, hinv1, hnew, ?_⟩
      · unfold dfsLoop
        rw [hget]
        exact h1
      · intro x hx
        rcases List.mem_cons.mp hx with rfl | hx
        · exact hext.mono _ hget
        · exact hall x hx
    | false =>
      rw [hb] at hget
      obtain ⟨e1, m1, he1, hm1, hext1, hwf1, hinv1, hmw, hcount, hold⟩ :=
        mark_step hwf hinv hv hvw hget
      obtain ⟨dfp2, h2, hpost⟩ := hcall _ w hwf1 hinv1 hmw (by omega)
      have hg2 : dfp2.g = dfp.g := hpost.ext.g_eq.trans hext1.g_eq
      obtain ⟨dfp3, h3, hext3, hwf3, hinv3, hnew3, hall3⟩ :=
        ih dfp2 hpost.wf hpost.inv (hpost.ext.mono _ (hext1.mono _ hv))
          (fun x hx => by rw [hg2]; exact hws x (List.mem_cons_of_mem _ hx))
          (by have := hpost.ext.unmarked_le; omega)
      refine ⟨dfp3, ?_, hext1.trans (hpost.ext.trans hext3), hwf3, hinv3, ?_, ?_⟩
      · unfold dfsLoop
        rw [hget]
        simp only [he1, hm1, h2]
        exact h3
      · intro x hx3 hx
        by_cases hx2 : Marked dfp2 x
        · apply Closed.mono hext3
          by_cases hx1 : Marked ⟨dfp.g, dfp.s, m1, e1⟩ x
          · rcases hold x hx1 with rfl | hx0
            · exact hpost.closed
            · exact absurd hx0 hx
          · exact hpost.closed_new x hx2 hx1
        · exact hnew3 x hx3 hx2
      · intro x hx
        rcases List.mem_cons.mp hx with rfl | hx
        · exact hext3.mono _ (hpost.ext.mono _ hmw)
        · exact hall3 x hx

/-- A call `dfs(v)` on a marked vertex `v` returns when the fuel exceeds the
number of unmarked vertices, and establishes `Post`. -/
theorem dfs_spec : ∀ n, CallSpec (dfs n) n := by
  intro n
  induction n with
  | zero => intro dfp v _ _ _ h; omega
  | succ n ih =>
    intro dfp v hwf hinv hv hn
    obtain ⟨hv0, hv1⟩ := hv.inRange hwf
    obtain ⟨ws, hws, -⟩ := hwf.graph.Adj_ok hv0 hv1
    obtain ⟨dfp1, h1, hext, hwf1, hinv1, hnew, hall⟩ :=
      dfsLoop_spec ih v ws dfp hwf hinv hv (fun w hw => ⟨ws, hws, hw⟩) (by omega)
    refine ⟨dfp1, ?_, hext, hwf1, hinv1, hnew, ?_⟩
    · unfold dfs
      rw [hws]
      exact h1
    · intro y hy
      obtain ⟨l, hl, hyl⟩ := hy
      rw [hext.g_eq, hws] at hl
      cases hl
      exact hall y hyl

/-- Giving `dfs` more fuel than it needs does not change what it returns. -/
theorem dfs_fuel_mono {n : Nat} {dfp dfp1 : DepthFirstPaths} {v : Int} :
    dfs n dfp v = .ok dfp1 → ∀ m, n ≤ m → dfs m dfp v = .ok dfp1 := by
  induction n generalizing dfp dfp1 v with
  | zero => intro h; cases h
  | succ n ih =>
    intro h m hm
    obtain ⟨m, rfl⟩ : ∃ k, m = k + 1 := ⟨m - 1, by omega⟩
    cases hws : dfp.g.Adj v with
    | error f => simp only [dfs, hws] at h; cases h
    | ok ws =>
      simp only [dfs, hws] at h ⊢
      clear hws
      induction ws generalizing dfp with
      | nil => exact h
      | cons w ws ihw =>
        cases hb : getAt dfp.marked w with
        | error f => simp only [dfsLoop, hb] at h; cases h
        | ok b =>
          cases b with
          | true =>
            simp only [dfsLoop, hb] at h ⊢
            exact ihw h
          | false =>
            cases he : setAt dfp.edgeTo w v with
            | error f => simp only [dfsLoop, hb, he] at h; cases h
            | ok e1 =>
              cases hm1 : setAt dfp.marked w true with
              | error f => simp only [dfsLoop, hb, he, hm1] at h; cases h
              | ok m1 =>
                cases h2 : dfs n ⟨dfp.g, dfp.s, m1, e1⟩ w with
                | error f => simp only [dfsLoop, hb, he, hm1, h2] at h; cases h
                | ok dfp2 =>
                  simp only [dfsLoop, hb, he, hm1, h2, ih h2 m (by omega)] at h ⊢
                  exact ihw h

end DepthFirstPaths

/-! ## Path reconstruction -/

section SliceAt

theorem getAt_append_cons {α : Type} (a : List α) (x : α) (b : List α) :
    getAt (a ++ x :: b) (a.length : Int) = .ok x := by
  unfold getAt
  rw [if_neg (by omega)]
  have h : (a ++ x :: b)[a.length]? = some x := by
    rw [List.getElem?_append_right (le_refl _)]
    simp
  simp only [Int.toNat_ofNat, h]

theorem setAt_append_cons {α : Type} (a : List α) (x y : α) (b : List α) :
    setAt (a ++ x :: b) (a.length : Int) y = .ok (a ++ y :: b) := by
  simp [setAt]

end SliceAt

namespace DepthFirstPaths

/-- The swap loop of `PathTo` reverses the slice between its two indices. -/
theorem reverseLoop_spec :
    ∀ (n : Nat) (a m b : List Int), m.length < 2 * n →
      reverseLoop n a.length ((a.length : Int) + m.length - 1) (a ++ m ++ b) =
        .ok (a ++ m.reverse ++ b) := by
  intro n
  induction n with
  | zero => intro a m b h; omega
  | succ n ih =>
    intro a m b h
    unfold reverseLoop
    cases m with
    | nil => simp
    | cons x m1 =>
      rcases List.eq_nil_or_concat m1 with rfl | ⟨m2, y, rfl⟩
      · simp
      · simp only [List.concat_eq_append] at h ⊢
        have hlt : (a.length : Int) < (a.length : Int) + ((x :: (m2 ++ [y])).length : Nat) - 1 := by
          simp; omega
        rw [if_pos hlt]
        have hj : (a.length : Int) + ((x :: (m2 ++ [y])).length : Nat) - 1 =
            ((a ++ x :: m2).length : Nat) := by
          simp; omega
        have hp : a ++ x :: (m2 ++ [y]) ++ b = a ++ x :: (m2 ++ y :: b) := by simp
        have hp' : a ++ x :: (m2 ++ y :: b) = (a ++ x :: m2) ++ y :: b := by simp
        rw [hp, getAt_append_cons]
        simp only
        rw [hj]
        rw [show getAt (a ++ x :: (m2 ++ y :: b)) (((a ++ x :: m2).length : Nat) : Int) = .ok y by
          rw [hp']; exact getAt_append_cons _ _ _]
        simp only
        rw [setAt_append_cons]
        simp only
        have hq : a ++ y :: (m2 ++ y :: b) = (a ++ y :: m2) ++ y :: b := by simp
        have hlen : (a ++ x :: m2).length = (a ++ y :: m2).length := by simp
        rw [hq, hlen, setAt_append_cons]
        simp only
        have hfin : (a ++ y :: m2) ++ x :: b = (a ++ [y]) ++ m2 ++ ([x] ++ b) := by simp
        have hi : (a.length : Int) + 1 = ((a ++ [y]).length : Nat) := by simp
        have hj2 : (((a ++ y :: m2).length : Nat) : Int) - 1 =
            ((a ++ [y]).length : Nat) + (m2.length : Nat) - 1 := by
          simp; omega
        rw [hfin, hi, hj2, ih (a ++ [y]) m2 ([x] ++ b) (by simp at h; omega)]
        simp

theorem reverseLoop_eq (p : List Int) :
    reverseLoop (p.length + 1) 0 ((p.length : Int) - 1) p = .ok p.reverse := by
  have h := reverseLoop_spec (p.length + 1) [] p [] (by omega)
  simpa using h

/-- The predecessor loop of `PathTo` follows a predecessor walk to its end. -/
theorem pathToLoop_walk {dfp : DepthFirstPaths} {x : Int} {q : List Int} (hw : Walk dfp x q) :
    ∀ (n : Nat) (acc : List Int), q.length ≤ n →
      pathToLoop dfp.edgeTo dfp.s n x acc = .ok (acc ++ q) := by
  induction hw with
  | source =>
    intro n acc hn
    obtain ⟨n, rfl⟩ : ∃ k, n = k + 1 := ⟨n - 1, by simp at hn; omega⟩
    simp [pathToLoop]
  | step hne _ he _ _ _ ih =>
    intro n acc hn
    obtain ⟨n, rfl⟩ : ∃ k, n = k + 1 := ⟨n - 1, by simp at hn; omega⟩
    unfold pathToLoop
    rw [if_neg hne, he]
    simp only
    rw [ih n _ (by simp at hn; omega)]
    simp

/-- The shape of a predecessor walk: it starts at `x`, ends at the source,
repeats no vertex, and every vertex is followed by its recorded predecessor,
from which an edge of the graph leads to it. -/
theorem Walk.shape {dfp : DepthFirstPaths} {x : Int} {q : List Int} (hw : Walk dfp x q) :
    q.head? = some x ∧ q.getLast? = some dfp.s ∧ q.Nodup ∧
    q.Chain' (fun b a => dfp.g.IsEdge a b ∧ getAt dfp.edgeTo b = .ok a) := by
  induction hw with
  | source => simp
  | @step x y q _ _ he hedge hnot hq ih =>
    obtain ⟨hhead, hlast, hnd, hchain⟩ := ih
    refine ⟨rfl, ?_, List.nodup_cons.mpr ⟨hnot, hnd⟩, ?_⟩
    · cases q with
      | nil => simp at hhead
      | cons z q => simpa [List.getLast?_cons_cons] using hlast
    · cases q with
      | nil => simp at hhead
      | cons z q =>
        simp at hhead
        subst hhead
        exact List.Chain'.cons ⟨hedge, he⟩ hchain

/-- A list of distinct vertices of `[0, V)` has at most `V` entries. -/
theorem length_le_of_nodup_inRange {q : List Int} {V : Int} (hnd : q.Nodup)
    (hr : ∀ x ∈ q, 0 ≤ x ∧ x < V) : q.length ≤ V.toNat := by
  have hinj : (q.map Int.toNat).Nodup := by
    refine List.Nodup.map_on ?_ hnd
    intro a ha b hb hab
    have := hr a ha
    have := hr b hb
    omega
  have hsub : q.map Int.toNat ⊆ List.range V.toNat := by
    intro n hn
    obtain ⟨x, hx, rfl⟩ := List.mem_map.mp hn
    have := hr x hx
    exact List.mem_range.mpr (by omega)
  have := (List.subperm_of_subset hinj hsub).length_le
  simpa using this

theorem Walk.length_le {dfp : DepthFirstPaths} (hwf : StateWF dfp) (hinv : TreeInv dfp)
    {x : Int} {q : List Int} (hw : Walk dfp x q) : q.length ≤ dfp.g.v.toNat :=
  length_le_of_nodup_inRange hw.shape.2.2.1
    (fun y hy => (hw.marked hinv.source y hy).inRange hwf)

theorem HasPathTo_of_inRange {dfp : DepthFirstPaths} {v : Int} (h0 : 0 ≤ v)
    (h1 : v < dfp.g.v) : dfp.HasPathTo v = getAt dfp.marked v := by
  unfold HasPathTo
  rw [Undirected.validateVertex_of_inRange h0 h1]

theorem HasPathTo_eq_ok {dfp : DepthFirstPaths} {v : Int} {b : Bool}
    (h : dfp.HasPathTo v = .ok b) : (0 ≤ v ∧ v < dfp.g.v) ∧ getAt dfp.marked v = .ok b := by
  unfold HasPathTo at h
  split at h
  · cases h
  · rename_i u hu
    exact ⟨Undirected.validateVertex_eq_ok hu, h⟩

/-- `PathTo(v)` of a marked vertex is its predecessor walk reversed. -/
theorem PathTo_marked {dfp : DepthFirstPaths} (hwf : StateWF dfp) (hinv : TreeInv dfp)
    {v : Int} {q : List Int} (hm : Marked dfp v) (hw : Walk dfp v q) :
    dfp.PathTo v = .ok (some q.reverse) := by
  obtain ⟨h0, h1⟩ := hm.inRange hwf
  unfold PathTo
  rw [HasPathTo_of_inRange h0 h1, hm]
  simp only
  have := pathToLoop_walk hw dfp.g.V.toNat [] (hw.length_le hwf hinv)
  rw [this]
  simp only [List.nil_append]
  rw [reverseLoop_eq]

/-- `PathTo(v)` of an unmarked vertex is `nil`. -/
theorem PathTo_unmarked {dfp : DepthFirstPaths} {v : Int} (hv : 0 ≤ v ∧ v < dfp.g.v)
    (hm : getAt dfp.marked v = .ok false) : dfp.PathTo v = .ok none := by
  unfold PathTo
  rw [HasPathTo_of_inRange hv.1 hv.2, hm]

end DepthFirstPaths

/-! ## The recursive path finder -/

namespace DepthFirstPaths

/-- What `NewDepthFirstPaths` returns on a well-formed graph and a source in
range: a record over the same graph and source in which every marked vertex has
a predecessor walk and all its neighbours marked. -/
theorem NewDepthFirstPaths_spec {g : Undirected} (hg : g.WF) {s : Int}
    (hs : 0 ≤ s ∧ s < g.v) :
    ∃ dfp, NewDepthFirstPaths g s = .ok dfp ∧ dfp.g = g ∧ dfp.s = s ∧ StateWF dfp ∧
      TreeInv dfp ∧ ∀ x, Marked dfp x → Closed dfp x := by
  have hlen : s.toNat < (List.replicate g.v.toNat false).length := by simp; omega
  have hwf0 : StateWF ⟨g, s, (List.replicate g.v.toNat false).set s.toNat true,
      List.replicate g.v.toNat 0⟩ := ⟨hg, by simp, by simp⟩
  have hms : Marked ⟨g, s, (List.replicate g.v.toNat false).set s.toNat true,
      List.replicate g.v.toNat 0⟩ s := getAt_set_self _ hs.1 hlen
  have honly : ∀ x, Marked ⟨g, s, (List.replicate g.v.toNat false).set s.toNat true,
      List.replicate g.v.toNat 0⟩ x → x = s := by
    intro x hx
    by_contra hne
    have h1 : getAt ((List.replicate g.v.toNat false).set s.toNat true) x = .ok true := hx
    rw [getAt_set_ne _ hs.1 (Ne.symm hne)] at h1
    have h2 := List.getElem?_mem (getAt_eq_ok h1).2.2
    simp at h2
  have hinv0 : TreeInv ⟨g, s, (List.replicate g.v.toNat false).set s.toNat true,
      List.replicate g.v.toNat 0⟩ :=
    ⟨hms, fun x hx => ⟨[s], by rw [honly x hx]; exact Walk.source⟩⟩
  have hcount : unmarked ⟨g, s, (List.replicate g.v.toNat false).set s.toNat true,
      List.replicate g.v.toNat 0⟩ + 1 = g.v.toNat := by
    have h := count_false_set_true (List.replicate g.v.toNat false) s.toNat
      (by rw [List.getElem?_eq_getElem hlen]; simp)
    simpa [unmarked] using h
  obtain ⟨dfp, hdfp, hpost⟩ := dfs_spec g.v.toNat _ s hwf0 hinv0 hms (by omega)
  refine ⟨dfp, ?_, hpost.ext.g_eq, hpost.ext.s_eq, hpost.wf, hpost.inv, ?_⟩
  · unfold NewDepthFirstPaths newDepthFirstPathsFuel Undirected.V
    rw [if_neg (by omega), setAt_of_lt _ hs.1 hlen]
    exact hdfp
  · intro x hx
    by_cases h0 : Marked ⟨g, s, (List.replicate g.v.toNat false).set s.toNat true,
        List.replicate g.v.toNat 0⟩ x
    · rw [honly x h0]; exact hpost.closed
    · exact hpost.closed_new x hx h0

/-- A marked vertex is reachable from the source, along its predecessor walk
reversed. -/
theorem Walk.reachable {dfp : DepthFirstPaths} {x : Int} {q : List Int} (hw : Walk dfp x q) :
    dfp.g.Reachable dfp.s x := by
  obtain ⟨hhead, hlast, -, hchain⟩ := hw.shape
  refine ⟨q.reverse, by simpa using hlast, by simpa using hhead, ?_⟩
  rw [List.chain'_reverse]
  exact hchain.imp (fun _ _ h => h.1)

theorem marked_of_chain {dfp : DepthFirstPaths} (hclosed : ∀ x, Marked dfp x → Closed dfp x) :
    ∀ (p : List Int) (a : Int), Marked dfp a → (a :: p).Chain' dfp.g.IsEdge →
      ∀ y ∈ a :: p, Marked dfp y := by
  intro p
  induction p with
  | nil => intro a ha _ y hy; simp at hy; subst hy; exact ha
  | cons b p ih =>
    intro a ha hchain y hy
    rw [List.chain'_cons] at hchain
    rcases List.mem_cons.mp hy with rfl | hy
    · exact ha
    · exact ih b (hclosed _ ha b hchain.1) hchain.2 y hy

/-- When the source is marked and all marked vertices are closed, every vertex
reachable from the source is marked. -/
theorem marked_of_reachable {dfp : DepthFirstPaths} (hs : Marked dfp dfp.s)
    (hclosed : ∀ x, Marked dfp x → Closed dfp x) {v : Int}
    (h : dfp.g.Reachable dfp.s v) : Marked dfp v := by
  obtain ⟨p, hhead, hlast, hchain⟩ := h
  cases p with
  | nil => simp at hhead
  | cons a p =>
    simp at hhead
    subst hhead
    exact marked_of_chain hclosed p _ hs hchain v (List.mem_of_getLast?_eq_some hlast)

/-- The two possible answers to the queries on a vertex in range: unmarked with
no path, or marked with the predecessor walk reversed as its path. -/
theorem query_cases {dfp : DepthFirstPaths} (hwf : StateWF dfp) (hinv : TreeInv dfp) {v : Int}
    (hv : 0 ≤ v ∧ v < dfp.g.v) :
    (¬ Marked dfp v ∧ dfp.HasPathTo v = .ok false ∧ dfp.PathTo v = .ok none) ∨
    (∃ q, Marked dfp v ∧ Walk dfp v q ∧ dfp.HasPathTo v = .ok true ∧
      dfp.PathTo v = .ok (some q.reverse)) := by
  have hlt : v.toNat < dfp.marked.length := by rw [hwf.marked_len]; omega
  have hget := getAt_of_lt hv.1 hlt
  cases hb : dfp.marked.get ⟨v.toNat, hlt⟩ with
  | false =>
    rw [hb] at hget
    left
    refine ⟨?_, ?_, PathTo_unmarked hv hget⟩
    · intro h; unfold Marked at h; rw [hget] at h; cases h
    · rw [HasPathTo_of_inRange hv.1 hv.2, hget]
  | true =>
    rw [hb] at hget
    right
    obtain ⟨q, hq⟩ := hinv.walk v hget
    exact ⟨q, hget, hq, by rw [HasPathTo_of_inRange hv.1 hv.2, hget],
      PathTo_marked hwf hinv hget hq⟩

end DepthFirstPaths

/-! ## The iterative path finder -/

theorem iterativeLoop_pop {dfp : DepthFirstPaths} {v i : Int} {ws : List Int}
    (hws : dfp.g.Adj v = .ok ws) (hi : ¬ i < (ws.length : Int)) (n : Nat)
    (stack : List (Int × Int)) :
    iterativeLoop (n + 1) ((v, i) :: stack) dfp = iterativeLoop n stack dfp := by
  rw [iterativeLoop]
  simp only [hws]
  rw [if_neg hi]

theorem iterativeLoop_seen {dfp : DepthFirstPaths} {v i w : Int} {ws : List Int}
    (hws : dfp.g.Adj v = .ok ws) (hw : getAt ws i = .ok w)
    (hm : getAt dfp.marked w = .ok true) (n : Nat) (stack : List (Int × Int)) :
    iterativeLoop (n + 1) ((v, i) :: stack) dfp =
      iterativeLoop n ((v, i + 1) :: stack) dfp := by
  have hi : i < (ws.length : Int) := by
    obtain ⟨h0, h1, -⟩ := getAt_eq_ok hw
    omega
  rw [iterativeLoop]
  simp only [hws]
  rw [if_pos hi]
  simp only [hw, hm]

theorem iterativeLoop_fresh {dfp : DepthFirstPaths} {v i w : Int} {ws : List Int}
    {e1 : List Int} {m1 : List Bool}
    (hws : dfp.g.Adj v = .ok ws) (hw : getAt ws i = .ok w)
    (hm : getAt dfp.marked w = .ok false) (he1 : setAt dfp.edgeTo w v = .ok e1)
    (hm1 : setAt dfp.marked w true = .ok m1) (n : Nat) (stack : List (Int × Int)) :
    iterativeLoop (n + 1) ((v, i) :: stack) dfp =
      iterativeLoop n ((w, 0) :: (v, i + 1) :: stack) ⟨dfp.g, dfp.s, m1, e1⟩ := by
  have hi : i < (ws.length : Int) := by
    obtain ⟨h0, h1, -⟩ := getAt_eq_ok hw
    omega
  rw [iterativeLoop]
  simp only [hws]
  rw [if_pos hi]
  simp only [hw, hm, he1, hm1]

namespace DepthFirstPaths

theorem weight_set_true :
    ∀ (bs : List Bool) (ls : List (List Int)) (i : Nat) (l : List Int),
      bs[i]? = some false → ls[i]? = some l →
      weight (bs.set i true) ls + (l.length + 1) = weight bs ls := by
  intro bs
  induction bs with
  | nil => intro ls i l h; simp at h
  | cons b bs ih =>
    intro ls i l hb hl
    cases ls with
    | nil => simp at hl
    | cons l0 ls =>
      cases i with
      | zero =>
        simp at hb hl
        subst hb hl
        simp [weight]
        omega
      | succ i =>
        simp at hb hl
        have := ih ls i l hb hl
        simp only [List.set_cons_succ, weight]
        omega

theorem weight_replicate_false :
    ∀ (ls : List (List Int)),
      weight (List.replicate ls.length false) ls = (ls.map fun l => l.length + 1).sum := by
  intro ls
  induction ls with
  | nil => simp [weight]
  | cons l ls ih => simp [List.replicate_succ, weight, ih]

end DepthFirstPaths

/-- The loop of `dfs(v)` over the neighbours `ws` left after `pre` is simulated
by the explicit-stack loop from the frame `(v, len pre)`, given that the
recursive calls are simulated. -/
theorem dfsLoop_sim {call : DepthFirstPaths → Int → Except Fault DepthFirstPaths}
    (hcall : CallSim call) (v : Int) :
    ∀ (ws pre : List Int) (dfp dfp1 : DepthFirstPaths),
      dfp.g.Adj v = .ok (pre ++ ws) → DepthFirstPaths.dfsLoop call v ws dfp = .ok dfp1 →
      dfp1.g = dfp.g ∧
      ∀ stack, ∃ k, k + dfp1.work ≤ ws.length + 1 + dfp.work ∧
        ∀ m, iterativeLoop (m + k) ((v, (pre.length : Int)) :: stack) dfp =
          iterativeLoop m stack dfp1 := by
  intro ws
  induction ws with
  | nil =>
    intro pre dfp dfp1 hadj h
    cases h
    refine ⟨rfl, fun stack => ⟨1, by omega, fun m => ?_⟩⟩
    exact iterativeLoop_pop hadj (by simp) m stack
  | cons w ws ih =>
    intro pre dfp dfp1 hadj h
    have hadj' : dfp.g.Adj v = .ok ((pre ++ [w]) ++ ws) := by simpa using hadj
    have hw : getAt (pre ++ w :: ws) (pre.length : Int) = .ok w := getAt_append_cons _ _ _
    have hidx : (pre.length : Int) + 1 = ((pre ++ [w]).length : Nat) := by simp
    cases hb : getAt dfp.marked w with
    | error f => simp only [DepthFirstPaths.dfsLoop, hb] at h; cases h
    | ok b =>
      cases b with
      | true =>
        simp only [DepthFirstPaths.dfsLoop, hb] at h
        obtain ⟨hg, hsim⟩ := ih (pre ++ [w]) dfp dfp1 hadj' h
        refine ⟨hg, fun stack => ?_⟩
        obtain ⟨k, hk, hrun⟩ := hsim stack
        refine ⟨k + 1, by simp only [List.length_cons]; omega, fun m => ?_⟩
        rw [← Nat.add_assoc, iterativeLoop_seen hadj hw hb, hidx]
        exact hrun m
      | false =>
        cases he : setAt dfp.edgeTo w v with
        | error f => simp only [DepthFirstPaths.dfsLoop, hb, he] at h; cases h
        | ok e1 =>
          cases hm1 : setAt dfp.marked w true with
          | error f => simp only [DepthFirstPaths.dfsLoop, hb, he, hm1] at h; cases h
          | ok m1 =>
            cases h2 : call ⟨dfp.g, dfp.s, m1, e1⟩ w with
            | error f => simp only [DepthFirstPaths.dfsLoop, hb, he, hm1, h2] at h; cases h
            | ok dfp2 =>
              simp only [DepthFirstPaths.dfsLoop, hb, he, hm1, h2] at h
              obtain ⟨hg2, l, hl, hsim2⟩ := hcall _ w dfp2 h2
              have hg2' : dfp2.g = dfp.g := hg2
              obtain ⟨hg3, hsim3⟩ := ih (pre ++ [w]) dfp2 dfp1 (by rw [hg2']; exact hadj') h
              refine ⟨hg3.trans hg2', fun stack => ?_⟩
              obtain ⟨k1, hk1, hrun1⟩ := hsim2 ((v, (pre.length : Int) + 1) :: stack)
              obtain ⟨k2, hk2, hrun2⟩ := hsim3 stack
              have hwork : DepthFirstPaths.work ⟨dfp.g, dfp.s, m1, e1⟩ + (l.length + 1) =
                  dfp.work := by
                obtain ⟨-, -, rfl⟩ := setAt_eq_ok hm1
                have hl' : getAt dfp.g.adj w = .ok l := (Undirected.Adj_eq_ok hl).2.2
                exact DepthFirstPaths.weight_set_true _ _ _ _ (getAt_eq_ok hb).2.2
                  (getAt_eq_ok hl').2.2
              refine ⟨k2 + k1 + 1, by simp only [List.length_cons]; omega, fun m => ?_⟩
              rw [← Nat.add_assoc, iterativeLoop_fresh hadj hw hb he hm1, ← Nat.add_assoc,
                hrun1, hidx]
              exact hrun2 m

/-- Every call of `dfs` that returns is simulated by the explicit-stack loop. -/
theorem dfs_sim : ∀ n, CallSim (DepthFirstPaths.dfs n) := by
  intro n
  induction n with
  | zero => intro dfp w dfp1 h; cases h
  | succ n ih =>
    intro dfp w dfp1 h
    cases hws : dfp.g.Adj w with
    | error f => simp only [DepthFirstPaths.dfs, hws] at h; cases h
    | ok ws =>
      simp only [DepthFirstPaths.dfs, hws] at h
      obtain ⟨hg, hsim⟩ := dfsLoop_sim ih w ws [] dfp dfp1 (by simpa using hws) h
      refine ⟨hg, ws, rfl, fun stack => ?_⟩
      obtain ⟨k, hk, hrun⟩ := hsim stack
      exact ⟨k, hk, fun m => by simpa using hrun m⟩

/-- On a well-formed graph and a source in range the iterative finder returns
the very record the recursive finder returns. -/
theorem iterative_eq_recursive {g : Undirected} (hg : g.WF) {s : Int}
    (hs : 0 ≤ s ∧ s < g.v) :
    ∃ dfp, NewDepthFirstPaths g s = .ok dfp ∧ NewIterativeDepthFirstPaths g s = .ok dfp := by
  obtain ⟨dfp, hdfp, -⟩ := DepthFirstPaths.NewDepthFirstPaths_spec hg hs
  refine ⟨dfp, hdfp, ?_⟩
  have hlen : s.toNat < (List.replicate g.v.toNat false).length := by simp; omega
  unfold NewDepthFirstPaths newDepthFirstPathsFuel Undirected.V at hdfp
  rw [if_neg (by omega), setAt_of_lt _ hs.1 hlen] at hdfp
  simp only at hdfp
  obtain ⟨-, l, hl, hsim⟩ := dfs_sim _ _ s dfp hdfp
  obtain ⟨k, hk, hrun⟩ := hsim []
  have hl' : getAt g.adj s = .ok l := (Undirected.Adj_eq_ok hl).2.2
  have hwork : DepthFirstPaths.work ⟨g, s, (List.replicate g.v.toNat false).set s.toNat true,
      List.replicate g.v.toNat 0⟩ + (l.length + 1) = (g.adj.map fun l => l.length + 1).sum := by
    rw [← DepthFirstPaths.weight_replicate_false, hg.len]
    exact DepthFirstPaths.weight_set_true _ _ _ _
      (by rw [List.getElem?_eq_getElem hlen]; simp) (getAt_eq_ok hl').2.2
  have hfuel : iterativeFuel g = (iterativeFuel g - k - 1 + 1) + k := by
    unfold iterativeFuel
    omega
  unfold NewIterativeDepthFirstPaths Undirected.V
  rw [if_neg (by omega), setAt_of_lt _ hs.1 hlen]
  simp only
  rw [hfuel, hrun]
  rfl

/-! ## Adjacency lengths and the edge count -/

theorem sum_length_set_append :
    ∀ (ls : List (List Int)) (i : Nat) (a : List Int) (w : Int), ls[i]? = some a →
      ((ls.set i (a ++ [w])).map List.length).sum = (ls.map List.length).sum + 1 := by
  intro ls
  induction ls with
  | nil => intro i a w h; simp at h
  | cons l ls ih =>
    intro i a w h
    cases i with
    | zero =>
      simp at h
      subst h
      simp
      omega
    | succ i =>
      simp at h
      have := ih i a w h
      simp only [List.set_cons_succ, List.map_cons, List.sum_cons, this]
      omega

theorem Undirected.AddEdge_sum_length {g g1 : Undirected} {v w : Int}
    (h : g.AddEdge v w = .ok g1) :
    (g1.adj.map List.length).sum = (g.adj.map List.length).sum + 2 := by
  obtain ⟨-, -, -, -, av, aw, hav, haw, rfl⟩ := Undirected.AddEdge_eq_ok h
  simp only
  rw [sum_length_set_append _ _ _ _ (getAt_eq_ok haw).2.2,
    sum_length_set_append _ _ _ _ (getAt_eq_ok hav).2.2]

theorem Undirected.addEdges_sum_length {es : List (Int × Int)} :
    ∀ {g g1 : Undirected}, g.addEdges es = .ok g1 →
      (g1.adj.map List.length).sum = (g.adj.map List.length).sum + 2 * es.length := by
  induction es with
  | nil => intro g g1 h; cases h; simp
  | cons e es ih =>
    intro g g1 h
    obtain ⟨v, w⟩ := e
    unfold Undirected.addEdges at h
    split at h
    · cases h
    · rename_i g2 h2
      rw [ih h, Undirected.AddEdge_sum_length h2]
      simp only [List.length_cons]
      omega

theorem adjLengthSum_eq {g : Undirected} (hg : g.WF) :
    adjLengthSum g = (g.adj.map List.length).sum := by
  unfold adjLengthSum Undirected.V
  congr 1
  apply List.ext_getElem
  · simp [hg.len]
  · intro n h1 h2
    simp only [List.length_map, List.length_range] at h1
    have hlt : (Int.ofNat n).toNat < g.adj.length := by rw [hg.len]; simpa using h1
    have hn : Int.ofNat n < g.v := by
      have : (n : Int) < g.v := by omega
      exact this
    have h0 : 0 ≤ Int.ofNat n := Int.ofNat_nonneg n
    simp only [List.getElem_map, List.getElem_range]
    rw [Undirected.Adj_of_inRange h0 hn, getAt_of_lt h0 hlt]
    simp

/-- On a built graph the sum of the adjacency lengths is twice the number of
`AddEdge` calls, and the edge count is that number. -/
theorem buildGraph_adjLengthSum {V : Int} {es : List (Int × Int)} {g : Undirected}
    (h : buildGraph V es = .ok g) : adjLengthSum g = 2 * es.length ∧ g.e = es.length := by
  refine ⟨?_, (buildGraph_eq_ok h).2.2.1⟩
  rw [adjLengthSum_eq (buildGraph_WF h)]
  unfold buildGraph at h
  split at h
  · cases h
  · rename_i g0 h0
    obtain ⟨-, rfl⟩ := Undirected.NewUndirected_eq_ok h0
    rw [Undirected.addEdges_sum_length h]
    simp

/-! ## Out-of-range vertex ids -/

namespace Undirected

/-- The value `AddEdge` returns is the graph `AddEdgeInPlace` leaves, when it
ends without a panic. -/
theorem AddEdge_eq_inPlace (g : Undirected) (v w : Int) :
    g.AddEdge v w =
      match g.AddEdgeInPlace v w with
      | (g1, none) => .ok g1
      | (_, some f) => .error f := by
  unfold AddEdge AddEdgeInPlace
  cases g.validateVertex v with
  | error f => rfl
  | ok _ =>
    cases g.validateVertex w with
    | error f => rfl
    | ok _ =>
      cases getAt g.adj v with
      | error f => rfl
      | ok av =>
        cases h1 : setAt g.adj v (av ++ [w]) with
        | error f => simp only [h1]
        | ok adj1 =>
          cases h2 : getAt adj1 w with
          | error f => simp only [h1, h2]
          | ok aw =>
            cases h3 : setAt adj1 w (aw ++ [v]) with
            | error f => simp only [h1, h2, h3]
            | ok adj2 => simp only [h1, h2, h3]

theorem validateVertex_of_outOfRange {g : Undirected} {x : Int} (h : x < 0 ∨ g.v ≤ x) :
    g.validateVertex x = .error .error := by
  unfold validateVertex V
  rw [if_pos (by omega)]

/-- With an endpoint out of range `AddEdge` panics before it writes. -/
theorem AddEdge_outOfRange {g : Undirected} {v w : Int}
    (h : (v < 0 ∨ g.v ≤ v) ∨ (w < 0 ∨ g.v ≤ w)) :
    g.AddEdge v w = .error .panic ∧ g.AddEdgeInPlace v w = (g, some .panic) := by
  unfold AddEdge AddEdgeInPlace
  by_cases hv : v < 0 ∨ g.v ≤ v
  · rw [validateVertex_of_outOfRange hv]
    exact ⟨rfl, rfl⟩
  · rw [validateVertex_of_inRange (by omega) (by omega)]
    have hw : w < 0 ∨ g.v ≤ w := by tauto
    rw [validateVertex_of_outOfRange hw]
    exact ⟨rfl, rfl⟩

theorem Adj_outOfRange {g : Undirected} {v : Int} (h : v < 0 ∨ g.v ≤ v) :
    g.Adj v = .error .panic := by
  unfold Adj
  rw [validateVertex_of_outOfRange h]

end Undirected

namespace DepthFirstPaths

theorem HasPathTo_outOfRange {dfp : DepthFirstPaths} {v : Int} (h : v < 0 ∨ dfp.g.v ≤ v) :
    dfp.HasPathTo v = .error .panic := by
  unfold HasPathTo
  rw [Undirected.validateVertex_of_outOfRange h]

theorem PathTo_outOfRange {dfp : DepthFirstPaths} {v : Int} (h : v < 0 ∨ dfp.g.v ≤ v) :
    dfp.PathTo v = .error .panic := by
  unfold PathTo
  rw [HasPathTo_outOfRange h]

end DepthFirstPaths

/-! ## The rendering -/

theorem writeNeighbours_eq (ws : List Int) :
    ∀ sb, writeNeighbours ws sb = sb ++ (ws.map fun w => Itoa w ++ " ".toList).flatten := by
  induction ws with
  | nil => intro sb; simp [writeNeighbours]
  | cons w ws ih =>
    intro sb
    simp only [writeNeighbours, ih, List.map_cons, List.flatten_cons, List.append_assoc]
    rfl

theorem stringLoop_eq {g : Undirected} (hg : g.WF) (vs : List Nat)
    (hvs : ∀ v ∈ vs, v < g.v.toNat) :
    ∀ sb, stringLoop g vs sb =
      .ok (sb ++ (vs.map fun (u : Nat) =>
        vertexLine (Int.ofNat u) (g.adjOf (Int.ofNat u))).flatten) := by
  induction vs with
  | nil => intro sb; simp [stringLoop]
  | cons v vs ih =>
    intro sb
    have hv := hvs v (List.mem_cons_self _ _)
    have h0 : 0 ≤ Int.ofNat v := Int.ofNat_nonneg v
    have h1 : Int.ofNat v < g.v := by
      have : (v : Int) < g.v := by omega
      exact this
    obtain ⟨l, hl, -⟩ := hg.Adj_ok h0 h1
    unfold stringLoop
    rw [hl]
    simp only
    rw [ih (fun u hu => hvs u (List.mem_cons_of_mem _ hu)), writeNeighbours_eq]
    simp only [List.map_cons, List.flatten_cons, vertexLine, Undirected.adjOf, hl,
      List.append_assoc]
    rfl

theorem String_eq {g : Undirected} (hg : g.WF) :
    g.String = .ok (rendering g.V g.E g.adjOf) := by
  unfold Undirected.String rendering Undirected.V Undirected.E
  rw [stringLoop_eq hg _ (fun v hv => List.mem_range.mp hv)]

/-! ## Decimal numerals -/

theorem digitValue_digitChar {d : Nat} (h : d < 10) :
    digitValue (Nat.digitChar d) = some d := by
  interval_cases d <;> rfl

theorem toDigitsCore_append (f : Nat) :
    ∀ (n : Nat) (ds : List Char),
      Nat.toDigitsCore 10 f n ds = Nat.toDigitsCore 10 f n [] ++ ds := by
  induction f with
  | zero => intro n ds; simp [Nat.toDigitsCore]
  | succ f ih =>
    intro n ds
    simp only [Nat.toDigitsCore]
    split
    · simp
    · rw [ih (n / 10) (Nat.digitChar (n % 10) :: ds), ih (n / 10) [Nat.digitChar (n % 10)]]
      simp

theorem toDigitsCore_succ (f n : Nat) :
    Nat.toDigitsCore 10 (f + 1) n [] =
      if n / 10 = 0 then [Nat.digitChar (n % 10)]
      else Nat.toDigitsCore 10 f (n / 10) [] ++ [Nat.digitChar (n % 10)] := by
  simp only [Nat.toDigitsCore]
  split
  · rfl
  · rw [toDigitsCore_append]

theorem parseDigits_append_single (l : List Char) (c : Char) :
    ∀ n, parseDigits (l ++ [c]) n =
      match parseDigits l n with
      | none => none
      | some m =>
        match digitValue c with
        | none => none
        | some d => some (m * 10 + d) := by
  induction l with
  | nil =>
    intro n
    simp only [List.nil_append, parseDigits]
  | cons a l ih =>
    intro n
    simp only [List.cons_append, parseDigits]
    cases digitValue a with
    | none => rfl
    | some d => exact ih _

theorem parseDigits_toDigitsCore :
    ∀ (f n : Nat), n < f → parseDigits (Nat.toDigitsCore 10 f n []) 0 = some n := by
  intro f
  induction f with
  | zero => intro n h; omega
  | succ f ih =>
    intro n h
    rw [toDigitsCore_succ]
    split
    · rename_i h0
      have hn : n % 10 = n := by omega
      have hlt : n < 10 := by omega
      rw [hn]
      simp only [parseDigits, digitValue_digitChar hlt]
      simp
    · rename_i h0
      rw [parseDigits_append_single, ih (n / 10) (by omega)]
      simp only [digitValue_digitChar (Nat.mod_lt n (by omega))]
      congr 1
      omega

theorem toDigitsCore_digits :
    ∀ (f n : Nat), ∀ c ∈ Nat.toDigitsCore 10 f n [], digitValue c ≠ none := by
  intro f
  induction f with
  | zero => intro n c hc; simp [Nat.toDigitsCore] at hc
  | succ f ih =>
    intro n c hc
    rw [toDigitsCore_succ] at hc
    have hd : digitValue (Nat.digitChar (n % 10)) ≠ none := by
      rw [digitValue_digitChar (Nat.mod_lt n (by omega))]
      simp
    split at hc
    · simp at hc; subst hc; exact hd
    · rcases List.mem_append.mp hc with hc | hc
      · exact ih _ c hc
      · simp at hc; subst hc; exact hd

theorem toDigitsCore_ne_nil (f n : Nat) : Nat.toDigitsCore 10 (f + 1) n [] ≠ [] := by
  rw [toDigitsCore_succ]
  split <;> simp

/-- The numeral of a non-negative number: digits only, at least one, at most
nineteen below `2^63`, and of the value of the number. -/
theorem Itoa_nonneg {i : Int} (h0 : 0 ≤ i) :
    Itoa i ≠ [] ∧ (∀ c ∈ Itoa i, digitValue c ≠ none) ∧
    parseDigits (Itoa i) 0 = some i.toNat ∧
    (i < 9223372036854775808 → (Itoa i).length ≤ 19) := by
  unfold Itoa
  rw [if_neg (by omega)]
  unfold Nat.toDigits
  refine ⟨toDigitsCore_ne_nil _ _, toDigitsCore_digits _ _,
    parseDigits_toDigitsCore _ _ (by omega), ?_⟩
  intro h
  exact Nat.toDigitsCore_length 10 (by omega) _ _ 19 (by omega) (by omega)

theorem splitSign_of_digit {c : Char} {cs : List Char} (h : digitValue c ≠ none) :
    splitSign (c :: cs) = (false, c :: cs) := by
  have h1 : c ≠ '-' := by rintro rfl; exact h (by decide)
  have h2 : c ≠ '+' := by rintro rfl; exact h (by decide)
  unfold splitSign
  split
  · rename_i heq; cases heq; exact absurd rfl h1
  · rename_i heq; cases heq; exact absurd rfl h2
  · rfl

/-- `Atoi` reads back the numeral of a non-negative `int`. -/
theorem Atoi_Itoa {i : Int} (h0 : 0 ≤ i) (h1 : i < 9223372036854775808) :
    Atoi (Itoa i) = .ok i := by
  obtain ⟨hne, hdig, hval, -⟩ := Itoa_nonneg h0
  cases hI : Itoa i with
  | nil => exact absurd hI hne
  | cons c cs =>
    rw [hI] at hdig hval
    unfold Atoi
    rw [splitSign_of_digit (hdig c (List.mem_cons_self _ _))]
    simp only [hval]
    rw [if_neg (by simp), if_pos (by omega)]
    congr 1
    omega

theorem Itoa_clean {i : Int} (h0 : 0 ≤ i) :
    ' ' ∉ Itoa i ∧ '\n' ∉ Itoa i ∧ '\r' ∉ Itoa i := by
  obtain ⟨-, hdig, -, -⟩ := Itoa_nonneg h0
  refine ⟨fun h => hdig _ h (by decide), fun h => hdig _ h (by decide),
    fun h => hdig _ h (by decide)⟩

/-! ## Scanning lines and reading edges -/

theorem scanLinesFrom_newline (cs cur : List Char) :
    scanLinesFrom ('\n' :: cs) cur =
      if maxScanTokenSize ≤ cur.length then [] else dropCR cur :: scanLinesFrom cs [] := by
  rw [scanLinesFrom, if_pos rfl]

theorem scanLinesFrom_char {c : Char} (h : c ≠ '\n') (cs cur : List Char) :
    scanLinesFrom (c :: cs) cur = scanLinesFrom cs (cur ++ [c]) := by
  rw [scanLinesFrom, if_neg h]

theorem scanLinesFrom_nil (cur : List Char) :
    scanLinesFrom [] cur =
      if cur = [] then [] else if maxScanTokenSize ≤ cur.length then [] else [dropCR cur] := by
  rw [scanLinesFrom]

theorem scanLinesFrom_line (rest : List Char) :
    ∀ (l cur : List Char), '\n' ∉ l → (cur ++ l).length < maxScanTokenSize →
      scanLinesFrom (l ++ '\n' :: rest) cur = dropCR (cur ++ l) :: scanLinesFrom rest [] := by
  intro l
  induction l with
  | nil =>
    intro cur _ hlen
    simp only [List.append_nil] at hlen
    rw [List.nil_append, scanLinesFrom_newline, if_neg (by omega), List.append_nil]
  | cons c l ih =>
    intro cur hmem hlen
    have hc : c ≠ '\n' := fun h => hmem (by simp [h])
    have hl : '\n' ∉ l := fun h => hmem (List.mem_cons_of_mem _ h)
    rw [List.cons_append, scanLinesFrom_char hc, ih (cur ++ [c]) hl (by simpa using hlen)]
    simp

theorem scanLinesFrom_last :
    ∀ (l cur : List Char), '\n' ∉ l → cur ++ l ≠ [] → (cur ++ l).length < maxScanTokenSize →
      scanLinesFrom l cur = [dropCR (cur ++ l)] := by
  intro l
  induction l with
  | nil =>
    intro cur _ hne hlen
    simp only [List.append_nil] at hne hlen
    rw [scanLinesFrom_nil, if_neg hne, if_neg (by omega), List.append_nil]
  | cons c l ih =>
    intro cur hmem hne hlen
    have hc : c ≠ '\n' := fun h => hmem (by simp [h])
    have hl : '\n' ∉ l := fun h => hmem (List.mem_cons_of_mem _ h)
    rw [scanLinesFrom_char hc, ih (cur ++ [c]) hl (by simp) (by simpa using hlen)]
    simp

/-- A line too long for the buffer ends the scan: neither it nor anything after
it is delivered. -/
theorem scanLinesFrom_tooLong (rest : List Char) :
    ∀ (l cur : List Char), '\n' ∉ l → maxScanTokenSize ≤ (cur ++ l).length →
      scanLinesFrom l cur = [] ∧ scanLinesFrom (l ++ '\n' :: rest) cur = [] := by
  intro l
  induction l with
  | nil =>
    intro cur _ hlen
    simp only [List.append_nil] at hlen
    have hne : cur ≠ [] := by
      rintro rfl
      simp [maxScanTokenSize] at hlen
    rw [List.nil_append, scanLinesFrom_nil, scanLinesFrom_newline, if_neg hne, if_pos hlen,
      if_pos hlen]
    exact ⟨rfl, rfl⟩
  | cons c l ih =>
    intro cur hmem hlen
    have hc : c ≠ '\n' := fun h => hmem (by simp [h])
    have hl : '\n' ∉ l := fun h => hmem (List.mem_cons_of_mem _ h)
    rw [List.cons_append, scanLinesFrom_char hc, scanLinesFrom_char hc]
    exact ih (cur ++ [c]) hl (by simpa using hlen)

theorem dropCR_of_clean {l : List Char} (h : CleanLine l) : dropCR l = l := by
  unfold dropCR
  rw [if_neg h.2.2.1]

/-- The scanner delivers the lines of a text of clean lines, with or without a
newline after the last one. -/
theorem scanLines_joinLines :
    ∀ (ls : List (List Char)), ls ≠ [] → (∀ l ∈ ls, CleanLine l) →
      scanLines (joinLines ls) = ls ∧ scanLines (joinLines ls ++ ['\n']) = ls := by
  intro ls
  induction ls with
  | nil => intro h; exact absurd rfl h
  | cons l ls ih =>
    intro _ hclean
    have hl := hclean l (List.mem_cons_self _ _)
    cases ls with
    | nil =>
      unfold scanLines
      simp only [joinLines]
      rw [scanLinesFrom_last l [] hl.2.1 (by simpa using hl.1) (by simpa using hl.2.2.2),
        scanLinesFrom_line [] l [] hl.2.1 (by simpa using hl.2.2.2)]
      simp [dropCR_of_clean hl, scanLinesFrom]
    | cons l1 ls =>
      obtain ⟨h1, h2⟩ := ih (by simp) (fun x hx => hclean x (List.mem_cons_of_mem _ hx))
      unfold scanLines at h1 h2 ⊢
      simp only [joinLines, List.append_assoc, List.cons_append]
      rw [scanLinesFrom_line _ l [] hl.2.1 (by simpa using hl.2.2.2),
        scanLinesFrom_line _ l [] hl.2.1 (by simpa using hl.2.2.2)]
      simp only [List.nil_append, dropCR_of_clean hl, h1, h2, and_self]

theorem splitSpace_of_no_space :
    ∀ (b : List Char), ' ' ∉ b → splitSpace b = [b] := by
  intro b
  induction b with
  | nil => intro _; rfl
  | cons c b ih =>
    intro h
    have hc : c ≠ ' ' := fun hc => h (by simp [hc])
    simp only [splitSpace, ih (fun hb => h (List.mem_cons_of_mem _ hb)), if_neg hc]

theorem splitSpace_pair :
    ∀ (a b : List Char), ' ' ∉ a → ' ' ∉ b → splitSpace (a ++ ' ' :: b) = [a, b] := by
  intro a
  induction a with
  | nil =>
    intro b _ hb
    simp only [List.nil_append, splitSpace, splitSpace_of_no_space b hb]
    simp
  | cons c a ih =>
    intro b ha hb
    have hc : c ≠ ' ' := fun hc => ha (by simp [hc])
    rw [List.cons_append, splitSpace, ih b (fun h => ha (List.mem_cons_of_mem _ h)) hb]
    simp only [if_neg hc]

theorem Itoa_cleanLine {i : Int} (h0 : 0 ≤ i) (h1 : i < 9223372036854775808) :
    CleanLine (Itoa i) := by
  obtain ⟨hne, hdig, -, hlen⟩ := Itoa_nonneg h0
  refine ⟨hne, (Itoa_clean h0).2.1, ?_, ?_⟩
  · intro h
    exact (Itoa_clean h0).2.2 (List.mem_of_getLast?_eq_some h)
  · have := hlen h1
    unfold maxScanTokenSize
    omega

theorem edgeLine_cleanLine {e : Int × Int} (hv : 0 ≤ e.1 ∧ e.1 < 9223372036854775808)
    (hw : 0 ≤ e.2 ∧ e.2 < 9223372036854775808) : CleanLine (edgeLine e) := by
  obtain ⟨hne1, -, -, hlen1⟩ := Itoa_nonneg hv.1
  obtain ⟨hne2, -, -, hlen2⟩ := Itoa_nonneg hw.1
  unfold edgeLine
  refine ⟨by simp, ?_, ?_, ?_⟩
  · intro h
    rcases List.mem_append.mp h with h | h
    · exact (Itoa_clean hv.1).2.1 h
    · rcases List.mem_cons.mp h with h | h
      · exact absurd h (by decide)
      · exact (Itoa_clean hw.1).2.1 h
  · intro h
    have hmem := List.mem_of_getLast?_eq_some h
    rcases List.mem_append.mp hmem with h | h
    · exact (Itoa_clean hv.1).2.2 h
    · rcases List.mem_cons.mp h with h | h
      · exact absurd h (by decide)
      · exact (Itoa_clean hw.1).2.2 h
  · have := hlen1 hv.2
    have := hlen2 hw.2
    simp only [List.length_append, List.length_cons]
    unfold maxScanTokenSize
    omega

/-- Reading the lines of an edge list adds the edges in order and counts them. -/
theorem readEdges_edgeLines :
    ∀ (es : List (Int × Int)) (u g1 : Undirected) (k : Int),
      u.addEdges es = .ok g1 → u.v < 9223372036854775808 →
      readEdges u (es.map edgeLine) k = .ok (g1, k + (es.length : Int)) := by
  intro es
  induction es with
  | nil =>
    intro u g1 k h _
    cases h
    simp [readEdges]
  | cons e es ih =>
    intro u g1 k h hV
    obtain ⟨v, w⟩ := e
    unfold Undirected.addEdges at h
    split at h
    · cases h
    · rename_i u2 h2
      obtain ⟨hv, hw, -⟩ := Undirected.AddEdge_eq_ok h2
      have hsplit : splitSpace (edgeLine (v, w)) = [Itoa v, Itoa w] :=
        splitSpace_pair _ _ (Itoa_clean hv.1).1 (Itoa_clean hw.1).1
      simp only [List.map_cons, readEdges, hsplit, Atoi_Itoa hv.1 (by omega),
        Atoi_Itoa hw.1 (by omega), Undirected.validateVertex_of_inRange hv.1 hv.2,
        Undirected.validateVertex_of_inRange hw.1 hw.2, h2]
      rw [ih u2 g1 (k + 1) h (by rw [Undirected.AddEdge_v h2]; exact hV)]
      simp only [List.length_cons]
      congr 2
      push_cast
      omega

theorem readEdges_WF :
    ∀ (ts : List (List Char)) (u g : Undirected) (k n : Int),
      u.WF → readEdges u ts k = .ok (g, n) → g.WF := by
  intro ts
  induction ts with
  | nil => intro u g k n hu h; simp only [readEdges] at h; cases h; exact hu
  | cons t ts ih =>
    intro u g k n hu h
    unfold readEdges at h
    split at h
    · rename_i a b _
      split at h
      · cases h
      · split at h
        · cases h
        · split at h
          · cases h
          · split at h
            · cases h
            · split at h
              · cases h
              · rename_i u1 h1
                exact ih u1 g _ n (hu.AddEdge h1) h
    · cases h

/-- A graph the reader returns is well formed. -/
theorem NewUndirectedFromReader_WF {r : List Char} {g : Undirected}
    (h : NewUndirectedFromReader r = .ok g) : g.WF := by
  unfold NewUndirectedFromReader at h
  generalize scanLines r = ls at h
  unfold newUndirectedFromLines at h
  split at h
  · cases h
  · split at h
    · cases h
    · rename_i v hv
      split at h
      · cases h
      · rename_i hv0
        split at h
        · cases h
        · split at h
          · cases h
          · split at h
            · cases h
            · split at h
              · cases h
              · rename_i u edges hread
                split at h
                · cases h
                · cases h
                  refine readEdges_WF _ _ _ _ _ ?_ hread
                  exact Undirected.WF.new (V := v) (by unfold NewUndirected; rw [if_neg hv0])

/-- The reader on the lines of a built graph returns that graph. -/
theorem newUndirectedFromLines_graphLines {V : Int} {es : List (Int × Int)} {g : Undirected}
    (hg : buildGraph V es = .ok g) (hV : V < 9223372036854775808)
    (hn : (es.length : Int) < 9223372036854775808) :
    newUndirectedFromLines (graphLines V es) = .ok g := by
  obtain ⟨hV0, -⟩ := buildGraph_eq_ok hg
  unfold buildGraph NewUndirected at hg
  rw [if_neg (by omega)] at hg
  simp only at hg
  unfold graphLines newUndirectedFromLines
  simp only [Atoi_Itoa hV0 hV, Atoi_Itoa (Int.ofNat_nonneg _) hn]
  rw [if_neg (by omega), if_neg (by omega), readEdges_edgeLines es _ g 0 hg hV]
  simp

theorem graphLines_clean {V : Int} {es : List (Int × Int)} (hV : 0 ≤ V ∧ V < 9223372036854775808)
    (hn : (es.length : Int) < 9223372036854775808)
    (hes : ∀ e ∈ es, (0 ≤ e.1 ∧ e.1 < V) ∧ (0 ≤ e.2 ∧ e.2 < V)) :
    ∀ l ∈ graphLines V es, CleanLine l := by
  intro l hl
  unfold graphLines at hl
  rcases List.mem_cons.mp hl with rfl | hl
  · exact Itoa_cleanLine hV.1 hV.2
  · rcases List.mem_cons.mp hl with rfl | hl
    · exact Itoa_cleanLine (Int.ofNat_nonneg _) hn
    · obtain ⟨e, he, rfl⟩ := List.mem_map.mp hl
      have := hes e he
      exact edgeLine_cleanLine ⟨this.1.1, by omega⟩ ⟨this.2.1, by omega⟩

/-! ## Counting the calls of `dfs` -/

namespace DepthFirstPaths

/-- The counting loop returns the record the loop returns, and each call it
counts has marked one vertex. -/
theorem dfsLoopCalls_eq {n : Nat}
    (hcall : ∀ dfp v d, dfs n dfp v = .ok d →
      ∃ c, dfsCalls n dfp v = .ok (d, c) ∧ c + unmarked d = 1 + unmarked dfp) (v : Int) :
    ∀ (ws : List Int) (dfp d : DepthFirstPaths) (c0 : Nat),
      dfsLoop (dfs n) v ws dfp = .ok d →
      ∃ c, dfsLoopCalls (dfsCalls n) v ws dfp c0 = .ok (d, c) ∧
        c + unmarked d = c0 + unmarked dfp := by
  intro ws
  induction ws with
  | nil =>
    intro dfp d c0 h
    cases h
    exact ⟨c0, rfl, rfl⟩
  | cons w ws ih =>
    intro dfp d c0 h
    cases hb : getAt dfp.marked w with
    | error f => simp only [dfsLoop, hb] at h; cases h
    | ok b =>
      cases b with
      | true =>
        simp only [dfsLoop, hb] at h
        obtain ⟨c, hc, hcount⟩ := ih dfp d c0 h
        exact ⟨c, by simp only [dfsLoopCalls, hb]; exact hc, hcount⟩
      | false =>
        cases he : setAt dfp.edgeTo w v with
        | error f => simp only [dfsLoop, hb, he] at h; cases h
        | ok e1 =>
          cases hm1 : setAt dfp.marked w true with
          | error f => simp only [dfsLoop, hb, he, hm1] at h; cases h
          | ok m1 =>
            cases h2 : dfs n ⟨dfp.g, dfp.s, m1, e1⟩ w with
            | error f => simp only [dfsLoop, hb, he, hm1, h2] at h; cases h
            | ok d2 =>
              simp only [dfsLoop, hb, he, hm1, h2] at h
              obtain ⟨c1, hc1, hcount1⟩ := hcall _ w d2 h2
              obtain ⟨c, hc, hcount⟩ := ih d2 d (c0 + c1) h
              have hmark : unmarked ⟨dfp.g, dfp.s, m1, e1⟩ + 1 = unmarked dfp := by
                obtain ⟨-, -, rfl⟩ := setAt_eq_ok hm1
                exact count_false_set_true _ _ (getAt_eq_ok hb).2.2
              refine ⟨c, ?_, by omega⟩
              simp only [dfsLoopCalls, hb, he, hm1, hc1]
              exact hc

/-- The counting `dfs` returns the record `dfs` returns, and the number of
calls is one more than the number of vertices it marked. -/
theorem dfsCalls_eq :
    ∀ (n : Nat) (dfp : DepthFirstPaths) (v : Int) (d : DepthFirstPaths),
      dfs n dfp v = .ok d →
      ∃ c, dfsCalls n dfp v = .ok (d, c) ∧ c + unmarked d = 1 + unmarked dfp := by
  intro n
  induction n with
  | zero => intro dfp v d h; cases h
  | succ n ih =>
    intro dfp v d h
    cases hws : dfp.g.Adj v with
    | error f => simp only [dfs, hws] at h; cases h
    | ok ws =>
      simp only [dfs, hws] at h
      obtain ⟨c, hc, hcount⟩ := dfsLoopCalls_eq ih v ws dfp d 1 h
      exact ⟨c, by simp only [dfsCalls, hws]; exact hc, hcount⟩

end DepthFirstPaths

/-- `NewDepthFirstPaths` makes at most `V` calls of `dfs`, and returns the same
finder for every recursion depth of at least `V`. -/
theorem newDepthFirstPaths_calls {g : Undirected} {s : Int}
    (hs : 0 ≤ s ∧ s < g.v) {dfp : DepthFirstPaths} (hdfp : NewDepthFirstPaths g s = .ok dfp) :
    (∃ c, newDepthFirstPathsCalls g s = .ok (dfp, c) ∧ c ≤ g.v.toNat) ∧
    ∀ fuel, g.v.toNat ≤ fuel → newDepthFirstPathsFuel fuel g s = .ok dfp := by
  have hlen : s.toNat < (List.replicate g.v.toNat false).length := by simp; omega
  unfold NewDepthFirstPaths newDepthFirstPathsFuel Undirected.V at hdfp
  rw [if_neg (by omega), setAt_of_lt _ hs.1 hlen] at hdfp
  simp only at hdfp
  constructor
  · obtain ⟨c, hc, hcount⟩ := DepthFirstPaths.dfsCalls_eq _ _ _ _ hdfp
    have h0 : DepthFirstPaths.unmarked ⟨g, s, (List.replicate g.v.toNat false).set s.toNat true,
        List.replicate g.v.toNat 0⟩ + 1 = g.v.toNat := by
      have h := DepthFirstPaths.count_false_set_true (List.replicate g.v.toNat false) s.toNat
        (by rw [List.getElem?_eq_getElem hlen]; simp)
      simpa [DepthFirstPaths.unmarked] using h
    refine ⟨c, ?_, by omega⟩
    unfold newDepthFirstPathsCalls Undirected.V
    rw [if_neg (by omega), setAt_of_lt _ hs.1 hlen]
    exact hc
  · intro fuel hfuel
    unfold newDepthFirstPathsFuel Undirected.V
    rw [if_neg (by omega), setAt_of_lt _ hs.1 hlen]
    exact DepthFirstPaths.dfs_fuel_mono hdfp fuel hfuel

/-! ## The path found is the first in adjacency order -/

theorem lexLe_refl : ∀ (a : List Nat), lexLe a a := by
  intro a
  induction a with
  | nil => trivial
  | cons x a ih => exact Or.inr ⟨rfl, ih⟩

theorem path_cons_cons {P : List Int} {v x : Int} (hhead : P.head? = some v)
    (hlast : P.getLast? = some x) (hne : x ≠ v) : ∃ y ys, P = v :: y :: ys := by
  cases P with
  | nil => simp at hhead
  | cons a P =>
    simp at hhead
    subst hhead
    cases P with
    | nil => simp at hlast; exact absurd hlast.symm hne
    | cons y ys => exact ⟨y, ys, rfl⟩

namespace DepthFirstPaths

/-- Along an edge chain of vertices unmarked in `a` that starts at a vertex
marked in `b`, every vertex is marked in `b`, when the vertices newly marked in
`b` are closed. -/
theorem marked_along {a b : DepthFirstPaths} (hg : b.g = a.g)
    (hclosed : ∀ z, Marked b z → ¬ Marked a z → Closed b z) :
    ∀ (L : List Int) (y : Int), Marked b y → (y :: L).Chain' a.g.IsEdge →
      (∀ z ∈ y :: L, ¬ Marked a z) → ∀ z ∈ y :: L, Marked b z := by
  intro L
  induction L with
  | nil => intro y hy _ _ z hz; simp at hz; subst hz; exact hy
  | cons y1 L ih =>
    intro y hy hchain hfresh z hz
    rw [List.chain'_cons] at hchain
    rcases List.mem_cons.mp hz with rfl | hz
    · exact hy
    · have hy1 : Marked b y1 :=
        hclosed _ hy (hfresh _ (List.mem_cons_self _ _)) y1 (by rw [hg]; exact hchain.1)
      exact ih y1 hy1 hchain.2 (fun z hz => hfresh z (List.mem_cons_of_mem _ hz)) z hz

/-- A path fresh for `a` that ends at a vertex still unmarked in `b` is fresh
for `b`, when the vertices newly marked in `b` are closed. -/
theorem FreshPath.transfer {a b : DepthFirstPaths} {v x : Int} {P : List Int}
    (hP : FreshPath a v x P) (hg : b.g = a.g)
    (hclosed : ∀ z, Marked b z → ¬ Marked a z → Closed b z) (hx : ¬ Marked b x) :
    FreshPath b v x P := by
  refine ⟨hP.head, hP.last, by rw [hg]; exact hP.chain, hP.nodup, ?_⟩
  intro y hy hmy
  obtain ⟨s, t, hst⟩ := List.append_of_mem hy
  have hchain : (y :: t).Chain' a.g.IsEdge := by
    have := hP.chain.tail
    rw [hst] at this
    exact this.right_of_append
  have hfresh : ∀ z ∈ y :: t, ¬ Marked a z := by
    intro z hz
    exact hP.fresh z (by rw [hst]; exact List.mem_append_right _ hz)
  have hxmem : x ∈ y :: t := by
    cases P with
    | nil => simp at hy
    | cons p0 P' =>
      simp only [List.tail_cons] at hst
      have hlast := hP.last
      rw [hst, ← List.cons_append, List.getLast?_append] at hlast
      cases hl : (y :: t).getLast? with
      | none => simp at hl
      | some c =>
        rw [hl] at hlast
        simp at hlast
        subst hlast
        exact List.mem_of_getLast?_eq_some hl
  exact hx (marked_along hg hclosed t y hmy hchain hfresh x hxmem)

end DepthFirstPaths

theorem encodePath_cons_cons (g : Undirected) (a b : Int) (rest : List Int) :
    encodePath g (a :: b :: rest) = (g.adjOf a).indexOf b :: encodePath g (b :: rest) := by
  rw [encodePath]

/-- The first step of the comparison: the neighbour `w` taken by the traversal
stands in `Adj(v)` before every neighbour not yet passed. -/
theorem lexLe_first_step {g : Undirected} {v w y1 : Int} {pre ws ys : List Int}
    {tailEnc : List Nat} (hadjOf : g.adjOf v = pre ++ w :: ws) (hw : w ∉ pre) (hy : y1 ∉ pre)
    (hrec : y1 = w → lexLe tailEnc (encodePath g (y1 :: ys))) :
    lexLe ((g.adjOf v).indexOf w :: tailEnc) (encodePath g (v :: y1 :: ys)) := by
  rw [encodePath_cons_cons, hadjOf, List.indexOf_append_of_not_mem hw,
    List.indexOf_append_of_not_mem hy, List.indexOf_cons_self]
  by_cases hyw : y1 = w
  · right
    subst hyw
    rw [List.indexOf_cons_self]
    exact ⟨rfl, hrec rfl⟩
  · left
    rw [List.indexOf_cons_ne _ (Ne.symm hyw)]
    omega

namespace DepthFirstPaths

theorem CallLex.spec {call : DepthFirstPaths → Int → Except Fault DepthFirstPaths} {n : Nat}
    (h : CallLex call n) : CallSpec call n := by
  intro dfp v hwf hinv hv hn
  obtain ⟨d1, h1, hp, -⟩ := h dfp v hwf hinv hv hn
  exact ⟨d1, h1, hp⟩

/-- The loop of `dfs(v)` over the neighbours `ws` left after the marked
neighbours `pre`: every vertex it marks gets the first path from `v`. -/
theorem dfsLoop_lex {call : DepthFirstPaths → Int → Except Fault DepthFirstPaths} {n : Nat}
    (hcall : CallLex call n) (v : Int) :
    ∀ (ws pre : List Int) (dfp : DepthFirstPaths), StateWF dfp → TreeInv dfp → Marked dfp v →
      dfp.g.Adj v = .ok (pre ++ ws) → (∀ w ∈ pre, Marked dfp w) → unmarked dfp ≤ n →
      ∃ dfp1, dfsLoop call v ws dfp = .ok dfp1 ∧ LexPost dfp v dfp1 := by
  intro ws
  induction ws with
  | nil =>
    intro pre dfp _ _ _ _ _ _
    exact ⟨dfp, rfl, fun x h1 h2 => absurd h1 h2⟩
  | cons w ws ih =>
    intro pre dfp hwf hinv hv hadj hpre hn
    have hadj' : dfp.g.Adj v = .ok ((pre ++ [w]) ++ ws) := by simpa using hadj
    have hvw : dfp.g.IsEdge v w := ⟨_, hadj, by simp⟩
    obtain ⟨-, hwr⟩ := IsEdge_inRange hwf.graph hvw
    have hwm : w.toNat < dfp.marked.length := by rw [hwf.marked_len]; omega
    have hwe : w.toNat < dfp.edgeTo.length := by rw [hwf.edgeTo_len]; omega
    have hget := getAt_of_lt hwr.1 hwm
    cases hb : dfp.marked.get ⟨w.toNat, hwm⟩ with
    | true =>
      rw [hb] at hget
      obtain ⟨dfp1, h1, hlex⟩ := ih (pre ++ [w]) dfp hwf hinv hv hadj' (by
        intro x hx
        rcases List.mem_append.mp hx with hx | hx
        · exact hpre x hx
        · simp at hx; subst hx; exact hget) hn
      refine ⟨dfp1, ?_, hlex⟩
      unfold dfsLoop
      rw [hget]
      exact h1
    | false =>
      rw [hb] at hget
      have hnw : ¬ Marked dfp w := by
        intro h; unfold Marked at h; rw [hget] at h; cases h
      obtain ⟨e1, m1, he1, hm1, hext1, hwf1, hinv1, hmw, hcount, hold⟩ :=
        mark_step hwf hinv hv hvw hget
      have hedge1 : getAt e1 w = .ok v := by
        obtain ⟨-, -, rfl⟩ := setAt_eq_ok he1
        exact getAt_set_self _ hwr.1 hwe
      obtain ⟨dfp2, h2, hpost, hlex2⟩ := hcall _ w hwf1 hinv1 hmw (by omega)
      have hg2 : dfp2.g = dfp.g := hpost.ext.g_eq.trans hext1.g_eq
      have hext2 : Ext dfp dfp2 := hext1.trans hpost.ext
      have hv2 : Marked dfp2 v := hext2.mono _ hv
      have hn2 : unmarked dfp2 ≤ n := by
        have := hpost.ext.unmarked_le
        omega
      have hpre2 : ∀ x ∈ pre ++ [w], Marked dfp2 x := by
        intro x hx
        rcases List.mem_append.mp hx with hx | hx
        · exact hext2.mono _ (hpre x hx)
        · simp at hx; subst hx; exact hpost.ext.mono _ hmw
      obtain ⟨dfp3, h3, hlex3⟩ :=
        ih (pre ++ [w]) dfp2 hpost.wf hpost.inv hv2 (by rw [hg2]; exact hadj') hpre2 hn2
      obtain ⟨dfp3', h3', hext3, -⟩ := dfsLoop_spec hcall.spec v ws dfp2 hpost.wf hpost.inv hv2
        (fun x hx => ⟨_, by rw [hg2]; exact hadj, by simp [hx]⟩) hn2
      rw [h3] at h3'
      cases h3'
      have hclosed2 : ∀ z, Marked dfp2 z → ¬ Marked dfp z → Closed dfp2 z := by
        intro z hz2 hz
        by_cases hz1 : Marked ⟨dfp.g, dfp.s, m1, e1⟩ z
        · rcases hold z hz1 with rfl | hz0
          · exact hpost.closed
          · exact absurd hz0 hz
        · exact hpost.closed_new z hz2 hz1
      have hadjOf : dfp.g.adjOf v = pre ++ w :: ws := by
        unfold Undirected.adjOf
        rw [hadj]
      have hwpre : w ∉ pre := fun h => hnw (hpre w h)
      refine ⟨dfp3, ?_, ?_⟩
      · unfold dfsLoop
        rw [hget]
        simp only [he1, hm1, h2]
        exact h3
      · intro x hx3 hx qv hqv
        have hxv : x ≠ v := by rintro rfl; exact hx hv
        have hwalk1 : Walk ⟨dfp.g, dfp.s, m1, e1⟩ w (w :: qv) := by
          refine Walk.step ?_ hmw hedge1 hvw ?_ (hqv.extend hext1)
          · intro hws
            have hws' : w = dfp.s := hws
            exact hnw (hws' ▸ hinv.source)
          · intro hmem
            exact hnw (hqv.marked hinv.source w hmem)
        by_cases hx2 : Marked dfp2 x
        · by_cases hxw : x = w
          · subst hxw
            refine ⟨[x], (hwalk1.extend hpost.ext).extend hext3, ?_⟩
            intro P hP
            obtain ⟨y1, ys, rfl⟩ := path_cons_cons hP.head hP.last hxv
            have hy1 : y1 ∉ pre := fun h =>
              hP.fresh y1 (by simp) (hpre y1 h)
            exact lexLe_first_step hadjOf hwpre hy1 (fun _ => trivial)
          · have hx1 : ¬ Marked ⟨dfp.g, dfp.s, m1, e1⟩ x := by
              intro h
              rcases hold x h with h | h
              · exact hxw h
              · exact hx h
            obtain ⟨r, hr, hmin⟩ := hlex2 x hx2 hx1 (w :: qv) hwalk1
            refine ⟨r ++ [w], by simpa using hr.extend hext3, ?_⟩
            intro P hP
            obtain ⟨y1, ys, rfl⟩ := path_cons_cons hP.head hP.last hxv
            have hy1 : y1 ∉ pre := fun h =>
              hP.fresh y1 (by simp) (hpre y1 h)
            have hrev : (r ++ [w]).reverse = w :: r.reverse := by simp
            rw [hrev, encodePath_cons_cons]
            refine lexLe_first_step hadjOf hwpre hy1 ?_
            intro hyw
            subst hyw
            apply hmin
            have hnd := hP.nodup
            rw [List.nodup_cons] at hnd
            refine ⟨rfl, ?_, ?_, hnd.2, ?_⟩
            · have := hP.last
              rwa [List.getLast?_cons_cons] at this
            · exact (List.chain'_cons.mp hP.chain).2
            · intro z hz hmz
              have hz' : z ∈ (v :: y1 :: ys).tail := by
                simp only [List.tail_cons] at hz ⊢
                exact List.mem_cons_of_mem _ hz
              rcases hold z hmz with rfl | hz0
              · simp only [List.tail_cons] at hz
                exact (List.nodup_cons.mp hnd.2).1 hz
              · exact hP.fresh z hz' hz0
        · obtain ⟨r, hr, hmin⟩ := hlex3 x hx3 hx2 qv (hqv.extend hext2)
          refine ⟨r, hr, ?_⟩
          intro P hP
          have := hmin P (hP.transfer hg2 hclosed2 hx2)
          rwa [hg2] at this

/-- Every call of `dfs` on a marked vertex gives each vertex it marks the first
path from that vertex. -/
theorem dfs_lex : ∀ n, CallLex (dfs n) n := by
  intro n
  induction n with
  | zero => intro dfp v _ _ _ h; omega
  | succ n ih =>
    intro dfp v hwf hinv hv hn
    obtain ⟨dfp1, h1, hpost⟩ := dfs_spec (n + 1) dfp v hwf hinv hv hn
    obtain ⟨hv0, hv1⟩ := hv.inRange hwf
    obtain ⟨ws, hws, -⟩ := hwf.graph.Adj_ok hv0 hv1
    obtain ⟨dfp1', h1', hlex⟩ := dfsLoop_lex ih v ws [] dfp hwf hinv hv (by simpa using hws)
      (by simp) (by omega)
    have : dfs (n + 1) dfp v = .ok dfp1' := by
      unfold dfs
      rw [hws]
      exact h1'
    rw [h1] at this
    cases this
    exact ⟨dfp1, h1, hpost, hlex⟩

end DepthFirstPaths

namespace DepthFirstPaths

/-- On a well-formed graph and a source in range, every marked vertex of the
finder `NewDepthFirstPaths` returns has a predecessor walk that, reversed, is
first among the repetition-free paths from the source to it. -/
theorem NewDepthFirstPaths_lex {g : Undirected} (hg : g.WF) {s : Int}
    (hs : 0 ≤ s ∧ s < g.v) :
    ∃ dfp, NewDepthFirstPaths g s = .ok dfp ∧ dfp.g = g ∧ dfp.s = s ∧ StateWF dfp ∧
      TreeInv dfp ∧
      ∀ x, Marked dfp x → ∃ q, Walk dfp x q ∧
        ∀ P, g.IsSimplePath s x P → lexLe (encodePath g q.reverse) (encodePath g P) := by
  have hlen : s.toNat < (List.replicate g.v.toNat false).length := by simp; omega
  have hwf0 : StateWF ⟨g, s, (List.replicate g.v.toNat false).set s.toNat true,
      List.replicate g.v.toNat 0⟩ := ⟨hg, by simp, by simp⟩
  have hms : Marked ⟨g, s, (List.replicate g.v.toNat false).set s.toNat true,
      List.replicate g.v.toNat 0⟩ s := getAt_set_self _ hs.1 hlen
  have honly : ∀ x, Marked ⟨g, s, (List.replicate g.v.toNat false).set s.toNat true,
      List.replicate g.v.toNat 0⟩ x → x = s := by
    intro x hx
    by_contra hne
    have h1 : getAt ((List.replicate g.v.toNat false).set s.toNat true) x = .ok true := hx
    rw [getAt_set_ne _ hs.1 (Ne.symm hne)] at h1
    have h2 := List.getElem?_mem (getAt_eq_ok h1).2.2
    simp at h2
  have hinv0 : TreeInv ⟨g, s, (List.replicate g.v.toNat false).set s.toNat true,
      List.replicate g.v.toNat 0⟩ :=
    ⟨hms, fun x hx => ⟨[s], by rw [honly x hx]; exact Walk.source⟩⟩
  have hcount : unmarked ⟨g, s, (List.replicate g.v.toNat false).set s.toNat true,
      List.replicate g.v.toNat 0⟩ + 1 = g.v.toNat := by
    have h := count_false_set_true (List.replicate g.v.toNat false) s.toNat
      (by rw [List.getElem?_eq_getElem hlen]; simp)
    simpa [unmarked] using h
  obtain ⟨dfp, hdfp, hpost, hlex⟩ := dfs_lex g.v.toNat _ s hwf0 hinv0 hms (by omega)
  refine ⟨dfp, ?_, hpost.ext.g_eq, hpost.ext.s_eq, hpost.wf, hpost.inv, ?_⟩
  · unfold NewDepthFirstPaths newDepthFirstPathsFuel Undirected.V
    rw [if_neg (by omega), setAt_of_lt _ hs.1 hlen]
    exact hdfp
  · intro x hx
    by_cases h0 : Marked ⟨g, s, (List.replicate g.v.toNat false).set s.toNat true,
        List.replicate g.v.toNat 0⟩ x
    · refine ⟨[s], ?_, fun P _ => ?_⟩
      · rw [honly x h0]
        have := @Walk.source dfp
        rwa [hpost.ext.s_eq] at this
      · simp [encodePath, lexLe]
    · obtain ⟨r, hr, hmin⟩ := hlex x hx h0 [s] Walk.source
      refine ⟨r ++ [s], hr, fun P hP => ?_⟩
      have hrev : (r ++ [s]).reverse = s :: r.reverse := by simp
      rw [hrev]
      apply hmin
      refine ⟨hP.head, hP.last, hP.chain, hP.nodup, ?_⟩
      intro y hy hmy
      have hys := honly y hmy
      subst hys
      cases P with
      | nil => simp at hy
      | cons a P' =>
        have hhead := hP.head
        simp at hhead
        subst hhead
        simp only [List.tail_cons] at hy
        exact (List.nodup_cons.mp hP.nodup).1 hy

end DepthFirstPaths

/-- When the loop over the lines returns, every line it was given is an edge
line of two vertices in range, and the count and the edge count have grown by
the number of lines. -/
theorem readEdges_eq_ok :
    ∀ (ts : List (List Char)) (u g : Undirected) (k n : Int),
      readEdges u ts k = .ok (g, n) →
      g.v = u.v ∧ g.e = u.e + (ts.length : Int) ∧ n = k + (ts.length : Int) ∧
      ∀ t ∈ ts, ∃ a b v w, splitSpace t = [a, b] ∧ Atoi a = .ok v ∧ Atoi b = .ok w ∧
        (0 ≤ v ∧ v < u.v) ∧ (0 ≤ w ∧ w < u.v) := by
  intro ts
  induction ts with
  | nil =>
    intro u g k n h
    simp only [readEdges] at h
    cases h
    simp
  | cons t ts ih =>
    intro u g k n h
    unfold readEdges at h
    split at h
    · rename_i a b hsplit
      split at h
      · cases h
      · rename_i v hv
        split at h
        · cases h
        · rename_i hvv
          split at h
          · cases h
          · rename_i w hw
            split at h
            · cases h
            · rename_i hvw
              split at h
              · cases h
              · rename_i u1 h1
                obtain ⟨hgv, hge, hn, hall⟩ := ih u1 g _ n h
                rw [Undirected.AddEdge_v h1] at hgv hall
                rw [Undirected.AddEdge_e h1] at hge
                refine ⟨hgv, by rw [hge]; simp only [List.length_cons]; push_cast; omega,
                  by rw [hn]; simp only [List.length_cons]; push_cast; omega, ?_⟩
                intro t' ht'
                rcases List.mem_cons.mp ht' with rfl | ht'
                · exact ⟨a, b, v, w, hsplit, hv, hw, Undirected.validateVertex_eq_ok hvv,
                    Undirected.validateVertex_eq_ok hvw⟩
                · exact hall t' ht'
    · cases h

/-- What a successful `NewUndirectedFromReader` has checked: the scanner
delivered a line with the number of vertices, a line with the number of edges,
and that many edge lines, each of two vertices in range. Lines the scanner did
not deliver are not looked at. -/
theorem NewUndirectedFromReader_eq_ok {r : List Char} {g : Undirected}
    (h : NewUndirectedFromReader r = .ok g) :
    ∃ t1 t2 rest, scanLines r = t1 :: t2 :: rest ∧ Atoi t1 = .ok g.v ∧ 0 ≤ g.v ∧
      Atoi t2 = .ok (rest.length : Int) ∧ g.e = (rest.length : Int) ∧
      ∀ t ∈ rest, ∃ a b v w, splitSpace t = [a, b] ∧ Atoi a = .ok v ∧ Atoi b = .ok w ∧
        (0 ≤ v ∧ v < g.v) ∧ (0 ≤ w ∧ w < g.v) := by
  unfold NewUndirectedFromReader at h
  generalize scanLines r = ls at h
  unfold newUndirectedFromLines at h
  split at h
  · cases h
  · rename_i t1 rest1
    split at h
    · cases h
    · rename_i v hv
      split at h
      · cases h
      · rename_i hv0
        split at h
        · cases h
        · rename_i t2 rest
          split at h
          · cases h
          · rename_i e he
            split at h
            · cases h
            · split at h
              · cases h
              · rename_i u edges hread
                split at h
                · cases h
                · rename_i hedges
                  cases h
                  obtain ⟨hgv, hge, hn, hall⟩ := readEdges_eq_ok _ _ _ _ _ hread
                  simp only at hgv hge hall
                  have hee : e = (rest.length : Int) := by
                    have : edges = e := by
                      by_contra hne
                      exact hedges hne
                    omega
                  refine ⟨t1, t2, rest, rfl, by rw [hgv]; exact hv, by omega,
                    by rw [← hee]; exact he, by omega, ?_⟩
                  rw [hgv]
                  exact hall

/-! ## The graph type: construction and edge insertion -/

/-- C8: `NewUndirected(V)` returns an error exactly when `V < 0`; for `V ≥ 0` it
returns a graph with `V() = V`, `E() = 0` and an empty `Adj(u)` for every
vertex `u` of `[0, V)`. -/
theorem NewUndirected_spec (V : Int) :
    (NewUndirected V = .error .error ↔ V < 0) ∧
    ((∃ f, NewUndirected V = .error f) ↔ V < 0) ∧
    (0 ≤ V → ∃ g, NewUndirected V = .ok g ∧ g.V = V ∧ g.E = 0 ∧
      ∀ u, 0 ≤ u → u < V → g.Adj u = .ok []) := by
  refine ⟨?_, ?_, ?_⟩
  · unfold NewUndirected
    split <;> simp <;> omega
  · unfold NewUndirected
    split <;> simp <;> omega
  · intro hV
    refine ⟨{ v := V, e := 0, adj := List.replicate V.toNat [] }, ?_, rfl, rfl, ?_⟩
    · unfold NewUndirected
      rw [if_neg (by omega)]
    · intro u hu0 hu1
      rw [Undirected.Adj_of_inRange hu0 hu1, getAt_of_lt hu0 (by simp; omega)]
      simp

/-- C8 at `V = 3`: the constructor succeeds with three empty adjacency slices. -/
theorem NewUndirected_spec_witness :
    ∃ g, NewUndirected 3 = .ok g ∧ g.V = 3 ∧ g.E = 0 ∧
      ∀ u, 0 ≤ u → u < 3 → g.Adj u = .ok [] :=
  (NewUndirected_spec 3).2.2 (by decide)

/-- C5: on a graph built by `AddEdge` calls and for vertices `v`, `w` of it,
`AddEdge(v, w)` raises `E()` by exactly one and leaves `w` last in `Adj(v)` and
`v` last in `Adj(w)`. For `v ≠ w` each of the two slices gains one entry; for
`v = w` the slice of `v` gains two entries equal to `v`. What the slices held
before plays no role, so an edge already present is added again. -/
theorem AddEdge_appends (V : Int) (es : List (Int × Int)) (g : Undirected)
    (hg : buildGraph V es = .ok g) (v w : Int)
    (hv : 0 ≤ v ∧ v < g.V) (hw : 0 ≤ w ∧ w < g.V) :
    ∃ g1 lv lw, g.AddEdge v w = .ok g1 ∧ g.Adj v = .ok lv ∧ g.Adj w = .ok lw ∧
      g1.E = g.E + 1 ∧
      (∃ l, g1.Adj v = .ok l ∧ l.getLast? = some w) ∧
      (∃ l, g1.Adj w = .ok l ∧ l.getLast? = some v) ∧
      (v ≠ w → g1.Adj v = .ok (lv ++ [w]) ∧ g1.Adj w = .ok (lw ++ [v])) ∧
      (v = w → g1.Adj v = .ok (lv ++ [v, v])) := by
  have hwf := buildGraph_WF hg
  obtain ⟨g1, h1⟩ := hwf.AddEdge_ok hv hw
  obtain ⟨lv, hlv, -⟩ := hwf.Adj_ok hv.1 hv.2
  obtain ⟨lw, hlw, -⟩ := hwf.Adj_ok hw.1 hw.2
  have hav := Undirected.AddEdge_Adj h1 v
  have haw := Undirected.AddEdge_Adj h1 w
  rw [hlv] at hav
  rw [hlw] at haw
  refine ⟨g1, lv, lw, h1, hlv, hlw, Undirected.AddEdge_e h1, ?_, ?_, ?_, ?_⟩
  · by_cases hvw : w = v
    · subst hvw
      exact ⟨_, hav, by simp [List.getLast?_append]⟩
    · exact ⟨_, hav, by simp [hvw, List.getLast?_append]⟩
  · by_cases hvw : v = w
    · subst hvw
      exact ⟨_, haw, by simp [List.getLast?_append]⟩
    · exact ⟨_, haw, by simp [hvw, List.getLast?_append]⟩
  · intro hne
    have hne' : ¬ w = v := fun h => hne h.symm
    exact ⟨by simpa [Except.map, hne'] using hav, by simpa [Except.map, hne] using haw⟩
  · intro heq
    subst heq
    simpa [Except.map] using hav

/-- C5 on the graph with edges `(0,1)`, `(0,0)`: adding the self-loop `(0,0)`
once more. -/
theorem AddEdge_appends_witness :
    ∃ g1 lv lw, Undirected.AddEdge ⟨2, 2, [[1, 0, 0], [0]]⟩ 0 0 = .ok g1 ∧
      Undirected.Adj ⟨2, 2, [[1, 0, 0], [0]]⟩ 0 = .ok lv ∧
      Undirected.Adj ⟨2, 2, [[1, 0, 0], [0]]⟩ 0 = .ok lw ∧
      g1.E = Undirected.E ⟨2, 2, [[1, 0, 0], [0]]⟩ + 1 ∧
      (∃ l, g1.Adj 0 = .ok l ∧ l.getLast? = some 0) ∧
      (∃ l, g1.Adj 0 = .ok l ∧ l.getLast? = some 0) ∧
      ((0 : Int) ≠ 0 → g1.Adj 0 = .ok (lv ++ [0]) ∧ g1.Adj 0 = .ok (lw ++ [0])) ∧
      ((0 : Int) = 0 → g1.Adj 0 = .ok (lv ++ [0, 0])) :=
  AddEdge_appends 2 [(0, 1), (0, 0)] ⟨2, 2, [[1, 0, 0], [0]]⟩ (by decide) 0 0
    (by decide) (by decide)

/-- C6: for `V ≥ 0` and edges with all endpoints in `[0, V)`, the graph built
from `NewUndirected(V)` by the `AddEdge` calls in order has `V() = V`,
`E()` the number of edges, and `Adj(u)` the insertion-order sequence of `u`
for every vertex `u`. -/
theorem buildGraph_spec (V : Int) (es : List (Int × Int)) (hV : 0 ≤ V)
    (hes : ∀ e ∈ es, (0 ≤ e.1 ∧ e.1 < V) ∧ (0 ≤ e.2 ∧ e.2 < V)) :
    ∃ g, buildGraph V es = .ok g ∧ g.V = V ∧ g.E = es.length ∧
      ∀ u, 0 ≤ u → u < V → g.Adj u = .ok (insertionOrderAdj u es) := by
  obtain ⟨g, hg⟩ := buildGraph_ok hV hes
  obtain ⟨-, hv, he, -, hadj⟩ := buildGraph_eq_ok hg
  exact ⟨g, hg, hv, he, hadj⟩

/-- C6 on four vertices with the edges `(0,1)`, `(2,3)`, `(1,1)`. -/
theorem buildGraph_spec_witness :
    ∃ g, buildGraph 4 [(0, 1), (2, 3), (1, 1)] = .ok g ∧ g.V = 4 ∧
      g.E = [((0 : Int), (1 : Int)), (2, 3), (1, 1)].length ∧
      ∀ u, 0 ≤ u → u < 4 → g.Adj u = .ok (insertionOrderAdj u [(0, 1), (2, 3), (1, 1)]) :=
  buildGraph_spec 4 [(0, 1), (2, 3), (1, 1)] (by decide) (by decide)

/-- C7: on a graph built by `AddEdge` calls and for vertices `v`, `w` of it,
`AddEdge(v, w)` leaves `V()` unchanged, leaves `Adj(u)` unchanged for every
`u` other than `v` and `w`, and for `u` among `v`, `w` the old `Adj(u)` is a
prefix of the new one. -/
theorem AddEdge_frame (V : Int) (es : List (Int × Int)) (g : Undirected)
    (hg : buildGraph V es = .ok g) (v w : Int)
    (hv : 0 ≤ v ∧ v < g.V) (hw : 0 ≤ w ∧ w < g.V) :
    ∃ g1, g.AddEdge v w = .ok g1 ∧ g1.V = g.V ∧
      (∀ u, u ≠ v → u ≠ w → g1.Adj u = g.Adj u) ∧
      (∀ u, u = v ∨ u = w → ∃ l l1, g.Adj u = .ok l ∧ g1.Adj u = .ok l1 ∧ l <+: l1) := by
  have hwf := buildGraph_WF hg
  obtain ⟨g1, h1⟩ := hwf.AddEdge_ok hv hw
  refine ⟨g1, h1, Undirected.AddEdge_v h1, ?_, ?_⟩
  · intro u huv huw
    rw [Undirected.AddEdge_Adj h1 u]
    have h1 : ¬ v = u := fun h => huv h.symm
    have h2 : ¬ w = u := fun h => huw h.symm
    cases g.Adj u <;> simp [Except.map, h1, h2]
  · intro u hu
    have hu' : 0 ≤ u ∧ u < g.v := by rcases hu with rfl | rfl <;> assumption
    obtain ⟨l, hl, -⟩ := hwf.Adj_ok hu'.1 hu'.2
    refine ⟨l, l ++ (if v = u then [w] else []) ++ (if w = u then [v] else []), hl, ?_, ?_⟩
    · rw [Undirected.AddEdge_Adj h1 u, hl]
      rfl
    · rw [List.append_assoc]
      exact List.prefix_append _ _

/-- C7 on the graph with edges `(0,1)`, `(2,3)`: adding `(1,2)`. -/
theorem AddEdge_frame_witness :
    ∃ g1, Undirected.AddEdge ⟨4, 2, [[1], [0], [3], [2]]⟩ 1 2 = .ok g1 ∧
      g1.V = Undirected.V ⟨4, 2, [[1], [0], [3], [2]]⟩ ∧
      (∀ u, u ≠ 1 → u ≠ 2 → g1.Adj u = Undirected.Adj ⟨4, 2, [[1], [0], [3], [2]]⟩ u) ∧
      (∀ u, u = 1 ∨ u = 2 → ∃ l l1, Undirected.Adj ⟨4, 2, [[1], [0], [3], [2]]⟩ u = .ok l ∧
        g1.Adj u = .ok l1 ∧ l <+: l1) :=
  AddEdge_frame 4 [(0, 1), (2, 3)] ⟨4, 2, [[1], [0], [3], [2]]⟩ (by decide) 1 2
    (by decide) (by decide)

/-! ## The recursive path finder: reachability and paths -/

/-- C1: on a graph built by `AddEdge` calls, for a source `s` and a vertex `v`
in range, `NewDepthFirstPaths(g, s)` returns a finder whose `HasPathTo(v)`
returns `true` exactly when `v` is reachable from `s` in `g`. -/
theorem HasPathTo_iff_reachable (V : Int) (es : List (Int × Int)) (g : Undirected)
    (hg : buildGraph V es = .ok g) (s v : Int)
    (hs : 0 ≤ s ∧ s < g.V) (hv : 0 ≤ v ∧ v < g.V) :
    ∃ dfp b, NewDepthFirstPaths g s = .ok dfp ∧ dfp.HasPathTo v = .ok b ∧
      (b = true ↔ g.Reachable s v) := by
  obtain ⟨dfp, hdfp, hgeq, hseq, hwf, hinv, hclosed⟩ :=
    DepthFirstPaths.NewDepthFirstPaths_spec (buildGraph_WF hg) hs
  have hv' : 0 ≤ v ∧ v < dfp.g.v := by rw [hgeq]; exact hv
  rcases DepthFirstPaths.query_cases hwf hinv hv' with ⟨hnm, hhas, -⟩ | ⟨q, hm, hq, hhas, -⟩
  · refine ⟨dfp, false, hdfp, hhas, ?_⟩
    constructor
    · intro h; cases h
    · intro hr
      rw [← hgeq, ← hseq] at hr
      exact absurd (DepthFirstPaths.marked_of_reachable hinv.source hclosed hr) hnm
  · refine ⟨dfp, true, hdfp, hhas, ?_⟩
    constructor
    · intro _
      have := hq.reachable
      rwa [hgeq, hseq] at this
    · intro _; rfl

/-- C1 on the graph with two components, from source 0 to vertex 2. -/
theorem HasPathTo_iff_reachable_witness :
    ∃ dfp b, NewDepthFirstPaths graphWithTwoComponents 0 = .ok dfp ∧
      dfp.HasPathTo 2 = .ok b ∧ (b = true ↔ graphWithTwoComponents.Reachable 0 2) :=
  HasPathTo_iff_reachable 4 [(0, 1), (2, 3)] graphWithTwoComponents (by decide) 0 2
    (by decide) (by decide)

/-- C2: on a graph built by `AddEdge` calls and for a source `s` in range,
`NewDepthFirstPaths(g, s)` returns a finder such that for every `v` with
`HasPathTo(v)` true, `PathTo(v)` is a non-empty sequence that starts with `s`,
ends with `v`, and in which every consecutive pair `(a, b)` is an edge of `g`
with `a` the recorded predecessor `edgeTo[b]`. -/
theorem PathTo_is_path (V : Int) (es : List (Int × Int)) (g : Undirected)
    (hg : buildGraph V es = .ok g) (s : Int) (hs : 0 ≤ s ∧ s < g.V) :
    ∃ dfp, NewDepthFirstPaths g s = .ok dfp ∧
      ∀ v, dfp.HasPathTo v = .ok true →
        ∃ p, dfp.PathTo v = .ok (some p) ∧ p ≠ [] ∧ p.head? = some s ∧
          p.getLast? = some v ∧
          p.Chain' (fun a b => g.IsEdge a b ∧ getAt dfp.edgeTo b = .ok a) := by
  obtain ⟨dfp, hdfp, hgeq, hseq, hwf, hinv, -⟩ :=
    DepthFirstPaths.NewDepthFirstPaths_spec (buildGraph_WF hg) hs
  refine ⟨dfp, hdfp, ?_⟩
  intro v hhas
  obtain ⟨hv, hm⟩ := DepthFirstPaths.HasPathTo_eq_ok hhas
  obtain ⟨q, hq⟩ := hinv.walk v hm
  obtain ⟨hhead, hlast, -, hchain⟩ := hq.shape
  refine ⟨q.reverse, DepthFirstPaths.PathTo_marked hwf hinv hm hq, ?_, ?_, ?_, ?_⟩
  · intro h
    rw [List.reverse_eq_nil_iff] at h
    rw [h] at hhead
    cases hhead
  · rw [List.head?_reverse, hlast, hseq]
  · rw [List.getLast?_reverse, hhead]
  · rw [List.chain'_reverse, ← hgeq]
    exact hchain

/-- C2 on the graph with a self-loop, from source 0. -/
theorem PathTo_is_path_witness :
    ∃ dfp, NewDepthFirstPaths graphWithSelfLoop 0 = .ok dfp ∧
      ∀ v, dfp.HasPathTo v = .ok true →
        ∃ p, dfp.PathTo v = .ok (some p) ∧ p ≠ [] ∧ p.head? = some 0 ∧
          p.getLast? = some v ∧
          p.Chain' (fun a b => graphWithSelfLoop.IsEdge a b ∧ getAt dfp.edgeTo b = .ok a) :=
  PathTo_is_path 2 [(0, 1), (0, 0)] graphWithSelfLoop (by decide) 0 (by decide)

/-- C3: on a graph built by `AddEdge` calls (self-loops, parallel edges and
cycles included) and for a source `s` in range, `NewDepthFirstPaths(g, s)`
returns a finder whose `PathTo(v)` returns, for every `v` in range, and the
sequence it returns holds no vertex more than once. -/
theorem PathTo_nodup (V : Int) (es : List (Int × Int)) (g : Undirected)
    (hg : buildGraph V es = .ok g) (s : Int) (hs : 0 ≤ s ∧ s < g.V) :
    ∃ dfp, NewDepthFirstPaths g s = .ok dfp ∧
      ∀ v, 0 ≤ v ∧ v < g.V →
        ∃ r, dfp.PathTo v = .ok r ∧ ∀ p, r = some p → p.Nodup := by
  obtain ⟨dfp, hdfp, hgeq, -, hwf, hinv, -⟩ :=
    DepthFirstPaths.NewDepthFirstPaths_spec (buildGraph_WF hg) hs
  refine ⟨dfp, hdfp, ?_⟩
  intro v hv
  have hv' : 0 ≤ v ∧ v < dfp.g.v := by rw [hgeq]; exact hv
  rcases DepthFirstPaths.query_cases hwf hinv hv' with ⟨-, -, hp⟩ | ⟨q, -, hq, -, hp⟩
  · exact ⟨none, hp, fun p h => by cases h⟩
  · refine ⟨some q.reverse, hp, ?_⟩
    intro p h
    cases h
    exact List.nodup_reverse.mpr hq.shape.2.2.1

/-- C3 on the graph with a parallel edge, from source 0. -/
theorem PathTo_nodup_witness :
    ∃ dfp, NewDepthFirstPaths graphWithParallelEdge 0 = .ok dfp ∧
      ∀ v, 0 ≤ v ∧ v < graphWithParallelEdge.V →
        ∃ r, dfp.PathTo v = .ok r ∧ ∀ p, r = some p → p.Nodup :=
  PathTo_nodup 2 [(0, 1), (1, 0)] graphWithParallelEdge (by decide) 0 (by decide)

/-- C9: on a graph built by `AddEdge` calls and for a source `s` in range, also
one with self-loops, the finder returned by `NewDepthFirstPaths(g, s)` has
`HasPathTo(s) = true` and `PathTo(s) = [s]`. -/
theorem PathTo_source (V : Int) (es : List (Int × Int)) (g : Undirected)
    (hg : buildGraph V es = .ok g) (s : Int) (hs : 0 ≤ s ∧ s < g.V) :
    ∃ dfp, NewDepthFirstPaths g s = .ok dfp ∧ dfp.HasPathTo s = .ok true ∧
      dfp.PathTo s = .ok (some [s]) := by
  obtain ⟨dfp, hdfp, hgeq, hseq, hwf, hinv, -⟩ :=
    DepthFirstPaths.NewDepthFirstPaths_spec (buildGraph_WF hg) hs
  have hm : dfp.Marked s := by rw [← hseq]; exact hinv.source
  have hw : dfp.Walk s [s] := by rw [← hseq]; exact DepthFirstPaths.Walk.source
  refine ⟨dfp, hdfp, ?_, ?_⟩
  · rw [DepthFirstPaths.HasPathTo_of_inRange hs.1 (by rw [hgeq]; exact hs.2)]
    exact hm
  · exact DepthFirstPaths.PathTo_marked hwf hinv hm hw

/-- C9 on the graph with a self-loop at the source 0. -/
theorem PathTo_source_witness :
    ∃ dfp, NewDepthFirstPaths graphWithSelfLoop 0 = .ok dfp ∧ dfp.HasPathTo 0 = .ok true ∧
      dfp.PathTo 0 = .ok (some [0]) :=
  PathTo_source 2 [(0, 1), (0, 0)] graphWithSelfLoop (by decide) 0 (by decide)

/-- C10: on a graph built by `AddEdge` calls and for a source `s` in range, the
finder returned by `NewDepthFirstPaths(g, s)` answers every `v` in range that
is not reachable from `s` with `HasPathTo(v) = false` and `PathTo(v) = nil`;
and for every `v` in range `PathTo(v)` is `nil` exactly when `HasPathTo(v)` is
`false`. -/
theorem PathTo_nil_iff (V : Int) (es : List (Int × Int)) (g : Undirected)
    (hg : buildGraph V es = .ok g) (s : Int) (hs : 0 ≤ s ∧ s < g.V) :
    ∃ dfp, NewDepthFirstPaths g s = .ok dfp ∧
      ∀ v, 0 ≤ v ∧ v < g.V →
        (¬ g.Reachable s v → dfp.HasPathTo v = .ok false ∧ dfp.PathTo v = .ok none) ∧
        (dfp.PathTo v = .ok none ↔ dfp.HasPathTo v = .ok false) := by
  obtain ⟨dfp, hdfp, hgeq, hseq, hwf, hinv, -⟩ :=
    DepthFirstPaths.NewDepthFirstPaths_spec (buildGraph_WF hg) hs
  refine ⟨dfp, hdfp, ?_⟩
  intro v hv
  have hv' : 0 ≤ v ∧ v < dfp.g.v := by rw [hgeq]; exact hv
  rcases DepthFirstPaths.query_cases hwf hinv hv' with ⟨-, hhas, hp⟩ | ⟨q, -, hq, hhas, hp⟩
  · exact ⟨fun _ => ⟨hhas, hp⟩, ⟨fun _ => hhas, fun _ => hp⟩⟩
  · refine ⟨?_, ?_, ?_⟩
    · intro hnr
      have := hq.reachable
      rw [hgeq, hseq] at this
      exact absurd this hnr
    · intro h; rw [hp] at h; cases h
    · intro h; rw [hhas] at h; cases h

/-- C10 on the graph with two components, from source 0. -/
theorem PathTo_nil_iff_witness :
    ∃ dfp, NewDepthFirstPaths graphWithTwoComponents 0 = .ok dfp ∧
      ∀ v, 0 ≤ v ∧ v < graphWithTwoComponents.V →
        (¬ graphWithTwoComponents.Reachable 0 v →
          dfp.HasPathTo v = .ok false ∧ dfp.PathTo v = .ok none) ∧
        (dfp.PathTo v = .ok none ↔ dfp.HasPathTo v = .ok false) :=
  PathTo_nil_iff 4 [(0, 1), (2, 3)] graphWithTwoComponents (by decide) 0 (by decide)

/-! ## The recursive and the iterative path finder agree -/

/-- C4: on a graph built by `AddEdge` calls and for a source `s` in range, the
recursive finder `NewDepthFirstPaths(g, s)` and the iterative finder
`NewIterativeDepthFirstPaths(g, s)` both return, with the same `marked` and
`edgeTo`, and give identical `HasPathTo` and identical `PathTo` results for
every vertex; for a vertex in range these results are values, not panics. -/
theorem iterative_agrees (V : Int) (es : List (Int × Int)) (g : Undirected)
    (hg : buildGraph V es = .ok g) (s : Int) (hs : 0 ≤ s ∧ s < g.V) :
    ∃ r i, NewDepthFirstPaths g s = .ok r ∧ NewIterativeDepthFirstPaths g s = .ok i ∧
      i.marked = r.marked ∧ i.edgeTo = r.edgeTo ∧
      (∀ v, i.HasPathTo v = r.HasPathTo v ∧ i.PathTo v = r.PathTo v) ∧
      ∀ v, 0 ≤ v ∧ v < g.V → ∃ b p, r.HasPathTo v = .ok b ∧ r.PathTo v = .ok p := by
  have hwfg := buildGraph_WF hg
  obtain ⟨dfp, hrec, hiter⟩ := iterative_eq_recursive hwfg hs
  obtain ⟨dfp', hrec', hgeq, -, hwf, hinv, -⟩ :=
    DepthFirstPaths.NewDepthFirstPaths_spec hwfg hs
  rw [hrec] at hrec'
  cases hrec'
  refine ⟨dfp, dfp, hrec, hiter, rfl, rfl, fun v => ⟨rfl, rfl⟩, ?_⟩
  intro v hv
  have hv' : 0 ≤ v ∧ v < dfp.g.v := by rw [hgeq]; exact hv
  rcases DepthFirstPaths.query_cases hwf hinv hv' with ⟨-, hhas, hp⟩ | ⟨q, -, -, hhas, hp⟩
  · exact ⟨false, none, hhas, hp⟩
  · exact ⟨true, some q.reverse, hhas, hp⟩

/-- C4 on the graph with a self-loop, from source 0. -/
theorem iterative_agrees_witness :
    ∃ r i, NewDepthFirstPaths graphWithSelfLoop 0 = .ok r ∧
      NewIterativeDepthFirstPaths graphWithSelfLoop 0 = .ok i ∧
      i.marked = r.marked ∧ i.edgeTo = r.edgeTo ∧
      (∀ v, i.HasPathTo v = r.HasPathTo v ∧ i.PathTo v = r.PathTo v) ∧
      ∀ v, 0 ≤ v ∧ v < graphWithSelfLoop.V →
        ∃ b p, r.HasPathTo v = .ok b ∧ r.PathTo v = .ok p :=
  iterative_agrees 2 [(0, 1), (0, 0)] graphWithSelfLoop (by decide) 0 (by decide)

/-! ## Source validation, a worked example, and the edge count -/

/-- C13: the eight-vertex graph built by `AddEdge` in the order
`(0,1)(0,6)(0,7)(1,6)(1,2)(1,4)(2,3)(2,4)(3,4)(4,5)`: `NewDepthFirstPaths` from
source 0 succeeds, `HasPathTo` is true for every vertex, and `PathTo` returns
`[0]`, `[0,1]`, `[0,1,2]`, `[0,1,2,3]`, `[0,1,2,3,4]`, `[0,1,2,3,4,5]`,
`[0,1,6]`, `[0,7]` for the vertices 0 to 7. -/
theorem graphWithCycles_paths :
    buildGraph 8 [(0, 1), (0, 6), (0, 7), (1, 6), (1, 2), (1, 4), (2, 3), (2, 4), (3, 4), (4, 5)]
      = .ok graphWithCycles ∧
    NewDepthFirstPaths graphWithCycles 0 = .ok pathsWithCycles ∧
    (∀ v ∈ [(0 : Int), 1, 2, 3, 4, 5, 6, 7], pathsWithCycles.HasPathTo v = .ok true) ∧
    pathsWithCycles.PathTo 0 = .ok (some [0]) ∧
    pathsWithCycles.PathTo 1 = .ok (some [0, 1]) ∧
    pathsWithCycles.PathTo 2 = .ok (some [0, 1, 2]) ∧
    pathsWithCycles.PathTo 3 = .ok (some [0, 1, 2, 3]) ∧
    pathsWithCycles.PathTo 4 = .ok (some [0, 1, 2, 3, 4]) ∧
    pathsWithCycles.PathTo 5 = .ok (some [0, 1, 2, 3, 4, 5]) ∧
    pathsWithCycles.PathTo 6 = .ok (some [0, 1, 6]) ∧
    pathsWithCycles.PathTo 7 = .ok (some [0, 7]) := by
  refine ⟨by decide, by decide, by decide, by decide, by decide, by decide, by decide,
    by decide, by decide, by decide, by decide⟩

/-- C11: on a graph built by `AddEdge` calls, `NewDepthFirstPaths(g, s)`
returns an error exactly when `s` is outside `[0, V)`; so it fails for every
`s` when the graph has no vertices, and it succeeds for every `s` in range. -/
theorem NewDepthFirstPaths_error_iff (V : Int) (es : List (Int × Int)) (g : Undirected)
    (hg : buildGraph V es = .ok g) (s : Int) :
    (NewDepthFirstPaths g s = .error .error ↔ (s < 0 ∨ g.V ≤ s)) ∧
    ((∃ f, NewDepthFirstPaths g s = .error f) ↔ (s < 0 ∨ g.V ≤ s)) ∧
    (g.V = 0 → NewDepthFirstPaths g s = .error .error) ∧
    ((0 ≤ s ∧ s < g.V) → ∃ dfp, NewDepthFirstPaths g s = .ok dfp) := by
  have hout : (s < 0 ∨ g.V ≤ s) → NewDepthFirstPaths g s = .error .error := by
    intro h
    unfold NewDepthFirstPaths newDepthFirstPathsFuel
    rw [if_pos (by omega)]
  have hin : (0 ≤ s ∧ s < g.V) → ∃ dfp, NewDepthFirstPaths g s = .ok dfp := by
    intro h
    obtain ⟨dfp, hdfp, -⟩ := DepthFirstPaths.NewDepthFirstPaths_spec (buildGraph_WF hg) h
    exact ⟨dfp, hdfp⟩
  refine ⟨⟨?_, hout⟩, ⟨?_, fun h => ⟨_, hout h⟩⟩, fun h0 => hout (by omega), hin⟩
  · intro h
    by_contra hn
    obtain ⟨dfp, hdfp⟩ := hin (by omega)
    rw [hdfp] at h
    cases h
  · rintro ⟨f, h⟩
    by_contra hn
    obtain ⟨dfp, hdfp⟩ := hin (by omega)
    rw [hdfp] at h
    cases h

/-- C11 on the graph without vertices: source 0 is rejected. -/
theorem NewDepthFirstPaths_error_iff_witness :
    NewDepthFirstPaths ⟨0, 0, []⟩ 0 = .error .error :=
  (NewDepthFirstPaths_error_iff 0 [] ⟨0, 0, []⟩ (by decide) 0).2.2.1 (by decide)

/-- C19, as stated, fails: no graph built by `AddEdge` calls has an edge count
different from half the sum of its adjacency lengths. -/
theorem edge_count_differs_refuted :
    ¬ ∃ (V : Int) (es : List (Int × Int)) (g : Undirected),
      buildGraph V es = .ok g ∧ g.E ≠ (adjLengthSum g : Int) / 2 := by
  rintro ⟨V, es, g, hg, hne⟩
  obtain ⟨hsum, he⟩ := buildGraph_adjLengthSum hg
  apply hne
  unfold Undirected.E
  rw [he, hsum]
  omega

/-- C19, amended: on a graph built by `AddEdge` calls the edge count `E()` is
the number of `AddEdge` calls, and the sum of `len(Adj(u))` over all vertices is
exactly twice `E()`: every call, a self-loop included, adds two adjacency
entries and one edge. -/
theorem edge_count_is_half_sum (V : Int) (es : List (Int × Int)) (g : Undirected)
    (hg : buildGraph V es = .ok g) :
    g.E = es.length ∧ (adjLengthSum g : Int) = 2 * g.E := by
  obtain ⟨hsum, he⟩ := buildGraph_adjLengthSum hg
  unfold Undirected.E
  rw [he, hsum]
  exact ⟨rfl, by push_cast; rfl⟩

/-- C19, amended, on the graph with the self-loop `(0,0)`. -/
theorem edge_count_is_half_sum_witness :
    graphWithSelfLoop.E = [((0 : Int), (1 : Int)), (0, 0)].length ∧
      (adjLengthSum graphWithSelfLoop : Int) = 2 * graphWithSelfLoop.E :=
  edge_count_is_half_sum 2 [(0, 1), (0, 0)] graphWithSelfLoop (by decide)

/-! ## Out-of-range vertex ids are rejected -/

/-- C12: on every graph built by `AddEdge` calls, the graph with no vertices
included, `AddEdge(v, w)` panics exactly when `v` or `w` is outside `[0, V)`,
and then the graph is left as it was: `V`, `E` and every adjacency sequence
unchanged. `Adj(v)` panics exactly when `v` is outside `[0, V)`. For every
source `s` in range the finder is built, and its `HasPathTo(v)` and `PathTo(v)`
panic exactly when `v` is outside `[0, V)`; inside the range each of them
returns a value. -/
theorem outOfRange_panics (V : Int) (es : List (Int × Int)) (g : Undirected)
    (hg : buildGraph V es = .ok g) :
    (∀ v w, ((∃ f, g.AddEdge v w = .error f) ↔ ((v < 0 ∨ g.V ≤ v) ∨ (w < 0 ∨ g.V ≤ w))) ∧
      (((v < 0 ∨ g.V ≤ v) ∨ (w < 0 ∨ g.V ≤ w)) →
        g.AddEdge v w = .error .panic ∧ g.AddEdgeInPlace v w = (g, some .panic))) ∧
    (∀ v, ((∃ f, g.Adj v = .error f) ↔ (v < 0 ∨ g.V ≤ v)) ∧
      ((v < 0 ∨ g.V ≤ v) → g.Adj v = .error .panic)) ∧
    ∀ s, 0 ≤ s ∧ s < g.V →
      ∃ dfp, NewDepthFirstPaths g s = .ok dfp ∧
        ∀ v, ((∃ f, dfp.HasPathTo v = .error f) ↔ (v < 0 ∨ g.V ≤ v)) ∧
          ((∃ f, dfp.PathTo v = .error f) ↔ (v < 0 ∨ g.V ≤ v)) ∧
          ((v < 0 ∨ g.V ≤ v) →
            dfp.HasPathTo v = .error .panic ∧ dfp.PathTo v = .error .panic) := by
  have hwf := buildGraph_WF hg
  refine ⟨fun v w => ⟨⟨?_, fun h => ⟨_, (Undirected.AddEdge_outOfRange h).1⟩⟩,
    Undirected.AddEdge_outOfRange⟩, fun v => ⟨⟨?_, fun h => ⟨_, Undirected.Adj_outOfRange h⟩⟩,
    Undirected.Adj_outOfRange⟩, ?_⟩
  · rintro ⟨f, h⟩
    by_contra hn
    have hv : 0 ≤ v ∧ v < g.v := by unfold Undirected.V at hn; omega
    have hw : 0 ≤ w ∧ w < g.v := by unfold Undirected.V at hn; omega
    obtain ⟨g1, h1⟩ := hwf.AddEdge_ok hv hw
    rw [h1] at h
    cases h
  · rintro ⟨f, h⟩
    by_contra hn
    have hv : 0 ≤ v ∧ v < g.v := by unfold Undirected.V at hn; omega
    obtain ⟨l, hl, -⟩ := hwf.Adj_ok hv.1 hv.2
    rw [hl] at h
    cases h
  · intro s hs
    obtain ⟨dfp, hdfp, hgeq, -, hwfd, hinv, -⟩ :=
      DepthFirstPaths.NewDepthFirstPaths_spec hwf hs
    refine ⟨dfp, hdfp, fun v => ?_⟩
    have hout : (v < 0 ∨ g.V ≤ v) →
        dfp.HasPathTo v = .error .panic ∧ dfp.PathTo v = .error .panic := by
      intro h
      have h' : v < 0 ∨ dfp.g.v ≤ v := by rw [hgeq]; exact h
      exact ⟨DepthFirstPaths.HasPathTo_outOfRange h', DepthFirstPaths.PathTo_outOfRange h'⟩
    have hin : ¬ (v < 0 ∨ g.V ≤ v) →
        ∃ b p, dfp.HasPathTo v = .ok b ∧ dfp.PathTo v = .ok p := by
      intro hn
      have hv : 0 ≤ v ∧ v < dfp.g.v := by rw [hgeq]; unfold Undirected.V at hn; omega
      rcases DepthFirstPaths.query_cases hwfd hinv hv with ⟨-, h1, h2⟩ | ⟨q, -, -, h1, h2⟩
      · exact ⟨_, _, h1, h2⟩
      · exact ⟨_, _, h1, h2⟩
    refine ⟨⟨?_, fun h => ⟨_, (hout h).1⟩⟩, ⟨?_, fun h => ⟨_, (hout h).2⟩⟩, hout⟩
    · rintro ⟨f, h⟩
      by_contra hn
      obtain ⟨b, p, h1, -⟩ := hin hn
      rw [h1] at h
      cases h
    · rintro ⟨f, h⟩
      by_contra hn
      obtain ⟨b, p, -, h2⟩ := hin hn
      rw [h2] at h
      cases h

/-- C12 on two built graphs. On the graph with two components `AddEdge(0, 4)`
panics and leaves the graph as it was, and the finder from source 0 panics on
`HasPathTo(4)` and `PathTo(4)`. On the graph with no vertices, which has no
source in range, `AddEdge(0, 0)` and `Adj(0)` panic. -/
theorem outOfRange_panics_witness :
    buildGraph 4 [(0, 1), (2, 3)] = .ok graphWithTwoComponents ∧
    (graphWithTwoComponents.AddEdge 0 4 = .error .panic ∧
      graphWithTwoComponents.AddEdgeInPlace 0 4 = (graphWithTwoComponents, some .panic)) ∧
    (∃ dfp, NewDepthFirstPaths graphWithTwoComponents 0 = .ok dfp ∧
      dfp.HasPathTo 4 = .error .panic ∧ dfp.PathTo 4 = .error .panic) ∧
    buildGraph 0 [] = .ok ⟨0, 0, []⟩ ∧
    (Undirected.AddEdge ⟨0, 0, []⟩ 0 0 = .error .panic ∧
      Undirected.AddEdgeInPlace ⟨0, 0, []⟩ 0 0 = (⟨0, 0, []⟩, some .panic)) ∧
    Undirected.Adj ⟨0, 0, []⟩ 0 = .error .panic :=
  ⟨by decide,
    ((outOfRange_panics 4 [(0, 1), (2, 3)] graphWithTwoComponents (by decide)).1 0 4).2
      (by decide),
    (let ⟨dfp, h, hv⟩ :=
      (outOfRange_panics 4 [(0, 1), (2, 3)] graphWithTwoComponents (by decide)).2.2 0
        (by decide)
     ⟨dfp, h, (hv 4).2.2 (by decide)⟩),
    by decide,
    ((outOfRange_panics 0 [] ⟨0, 0, []⟩ (by decide)).1 0 0).2 (by decide),
    ((outOfRange_panics 0 [] ⟨0, 0, []⟩ (by decide)).2.1 0).2 (by decide)⟩

/-! ## The rendering of a graph -/

/-- C16: on a graph built by `AddEdge` calls, `String()` returns the header
line `"<V> vertices, <E> edges\n"` followed, for each vertex id `u` from 0 to
`V - 1` in increasing order, by `"<u>: "`, each element of `Adj(u)` in order in
decimal followed by one space, and `"\n"`; the line of a vertex without
neighbours is exactly `"<u>: \n"`. -/
theorem String_spec (V : Int) (es : List (Int × Int)) (g : Undirected)
    (hg : buildGraph V es = .ok g) :
    g.String = .ok (Itoa g.V ++ " vertices, ".toList ++ Itoa g.E ++ " edges\n".toList ++
      ((List.range g.V.toNat).map fun (u : Nat) =>
        Itoa (Int.ofNat u) ++ ": ".toList ++
          ((g.adjOf (Int.ofNat u)).map fun w => Itoa w ++ " ".toList).flatten ++
          "\n".toList).flatten) ∧
    (∀ u, 0 ≤ u ∧ u < g.V → g.Adj u = .ok (g.adjOf u)) ∧
    ∀ u, vertexLine u [] = Itoa u ++ ": \n".toList := by
  have hwf := buildGraph_WF hg
  refine ⟨String_eq hwf, ?_, ?_⟩
  · intro u hu
    obtain ⟨l, hl, -⟩ := hwf.Adj_ok hu.1 hu.2
    unfold Undirected.adjOf
    rw [hl]
  · intro u
    simp [vertexLine]

/-- C16 on the test graph with six edges: the rendering the test expects. -/
theorem String_spec_witness :
    graphWithEdges.String = .ok ("8 vertices, 6 edges\n0: 1 6 7 \n1: 0 6 2 4 \n2: 1 \n" ++
      "3: \n4: 1 \n5: \n6: 0 1 \n7: 0 \n").toList := by
  have h := (String_spec 8 [(0, 1), (0, 6), (0, 7), (1, 6), (1, 2), (1, 4)] graphWithEdges
    (by decide)).1
  rw [h]
  decide

/-! ## The reader -/

/-- C14: for `V ≥ 0` and `n` edges with all endpoints in `[0, V)`, `V` and `n`
being values of a 64-bit `int`, `NewUndirectedFromReader` on the text whose
lines are the decimal `V`, the decimal `n` and `"v w"` for each edge in order,
with or without a newline after the last line, returns no error and the graph
that `NewUndirected(V)` followed by the `AddEdge` calls builds: the same `V()`,
`E()` and `Adj(u)` for every `u`. -/
theorem reader_roundtrip (V : Int) (es : List (Int × Int))
    (hV : 0 ≤ V ∧ V < 9223372036854775808) (hn : (es.length : Int) < 9223372036854775808)
    (hes : ∀ e ∈ es, (0 ≤ e.1 ∧ e.1 < V) ∧ (0 ≤ e.2 ∧ e.2 < V)) :
    ∃ g r, buildGraph V es = .ok g ∧
      NewUndirectedFromReader (joinLines (graphLines V es)) = .ok r ∧
      NewUndirectedFromReader (joinLines (graphLines V es) ++ ['\n']) = .ok r ∧
      r.V = g.V ∧ r.E = g.E ∧ ∀ u, r.Adj u = g.Adj u := by
  obtain ⟨g, hg⟩ := buildGraph_ok hV.1 hes
  have hscan := scanLines_joinLines (graphLines V es) (by simp [graphLines])
    (graphLines_clean hV hn hes)
  have hlines := newUndirectedFromLines_graphLines hg hV.2 hn
  refine ⟨g, g, hg, ?_, ?_, rfl, rfl, fun _ => rfl⟩
  · unfold NewUndirectedFromReader
    rw [hscan.1, hlines]
  · unfold NewUndirectedFromReader
    rw [hscan.2, hlines]

/-- C14 on four vertices with the edges `(0,1)`, `(2,3)`, `(1,1)`. -/
theorem reader_roundtrip_witness :
    ∃ g r, buildGraph 4 [(0, 1), (2, 3), (1, 1)] = .ok g ∧
      NewUndirectedFromReader (joinLines (graphLines 4 [(0, 1), (2, 3), (1, 1)])) = .ok r ∧
      NewUndirectedFromReader (joinLines (graphLines 4 [(0, 1), (2, 3), (1, 1)]) ++ ['\n'])
        = .ok r ∧
      r.V = g.V ∧ r.E = g.E ∧ ∀ u, r.Adj u = g.Adj u :=
  reader_roundtrip 4 [(0, 1), (2, 3), (1, 1)] (by decide) (by decide) (by decide)

/-- C15 fails on the code: on the text `"1\n0\n"` followed by a line of 70000
characters `x`, which is an edge line that does not consist of two tokens,
`NewUndirectedFromReader` returns a graph and no error. The scanner stops at
the line too long for its buffer, and the loop takes that for the end of the
input. -/
theorem reader_accepts_overlong_line :
    NewUndirectedFromReader ("1\n0\n".toList ++ List.replicate 70000 'x') =
      .ok { v := 1, e := 0, adj := [[]] } := by
  have hx : '\n' ∉ List.replicate 70000 'x' := by
    intro h
    exact absurd (List.eq_of_mem_replicate h) (by decide)
  have hin : "1\n0\n".toList ++ List.replicate 70000 'x' =
      ['1'] ++ '\n' :: (['0'] ++ '\n' :: List.replicate 70000 'x') := rfl
  have hlen : maxScanTokenSize ≤ ([] ++ List.replicate 70000 'x').length := by
    rw [List.nil_append, List.length_replicate]
    unfold maxScanTokenSize
    omega
  unfold NewUndirectedFromReader scanLines
  rw [hin, scanLinesFrom_line _ ['1'] [] (by decide) (by decide),
    scanLinesFrom_line _ ['0'] [] (by decide) (by decide),
    (scanLinesFrom_tooLong [] (List.replicate 70000 'x') [] hx hlen).1]
  decide

/-! ## The representation invariant and termination -/

/-- C18: a graph obtained from `NewUndirected(V)` or from a successful
`NewUndirectedFromReader` by `AddEdge` calls that do not fail has exactly `V`
adjacency sequences, and every neighbour in them lies in `[0, V)`. So for a
source in range `NewDepthFirstPaths` returns without a panic, with `V` entries
in `marked` and in `edgeTo`, and `HasPathTo` and `PathTo` return without a
panic for every vertex in range. -/
theorem graph_invariant (g0 g : Undirected) (es : List (Int × Int))
    (h0 : (∃ V, NewUndirected V = .ok g0) ∨ (∃ r, NewUndirectedFromReader r = .ok g0))
    (hadd : g0.addEdges es = .ok g) :
    (g.adj.length : Int) = g.V ∧
    (∀ l ∈ g.adj, ∀ x ∈ l, 0 ≤ x ∧ x < g.V) ∧
    (∀ u, 0 ≤ u ∧ u < g.V → ∃ l, g.Adj u = .ok l ∧ ∀ x ∈ l, 0 ≤ x ∧ x < g.V) ∧
    ∀ s, 0 ≤ s ∧ s < g.V →
      ∃ dfp, NewDepthFirstPaths g s = .ok dfp ∧
        (dfp.marked.length : Int) = g.V ∧ (dfp.edgeTo.length : Int) = g.V ∧
        ∀ v, 0 ≤ v ∧ v < g.V → ∃ b p, dfp.HasPathTo v = .ok b ∧ dfp.PathTo v = .ok p := by
  have hwf0 : g0.WF := by
    rcases h0 with ⟨V, hV⟩ | ⟨r, hr⟩
    · exact Undirected.WF.new hV
    · exact NewUndirectedFromReader_WF hr
  have hwf : g.WF := hwf0.addEdges hadd
  have hnn := hwf.nonneg
  refine ⟨?_, hwf.inRange, ?_, ?_⟩
  · rw [hwf.len]
    unfold Undirected.V
    omega
  · intro u hu
    obtain ⟨l, hl, hmem⟩ := hwf.Adj_ok hu.1 hu.2
    exact ⟨l, hl, hwf.inRange l hmem⟩
  · intro s hs
    obtain ⟨dfp, hdfp, hgeq, -, hwfd, hinv, -⟩ :=
      DepthFirstPaths.NewDepthFirstPaths_spec hwf hs
    refine ⟨dfp, hdfp, ?_, ?_, ?_⟩
    · rw [hwfd.marked_len, hgeq]
      unfold Undirected.V
      omega
    · rw [hwfd.edgeTo_len, hgeq]
      unfold Undirected.V
      omega
    · intro v hv
      have hv' : 0 ≤ v ∧ v < dfp.g.v := by rw [hgeq]; exact hv
      rcases DepthFirstPaths.query_cases hwfd hinv hv' with ⟨-, h1, h2⟩ | ⟨q, -, -, h1, h2⟩
      · exact ⟨_, _, h1, h2⟩
      · exact ⟨_, _, h1, h2⟩

/-- C18 on the graph read from the text `"2\n1\n0 1"`, with the self-loop
`(0,0)` added. -/
theorem graph_invariant_witness :
    ((graphWithSelfLoop.adj.length : Nat) : Int) = graphWithSelfLoop.V ∧
    (∀ l ∈ graphWithSelfLoop.adj, ∀ x ∈ l, 0 ≤ x ∧ x < graphWithSelfLoop.V) ∧
    (∀ u, 0 ≤ u ∧ u < graphWithSelfLoop.V →
      ∃ l, graphWithSelfLoop.Adj u = .ok l ∧ ∀ x ∈ l, 0 ≤ x ∧ x < graphWithSelfLoop.V) ∧
    ∀ s, 0 ≤ s ∧ s < graphWithSelfLoop.V →
      ∃ dfp, NewDepthFirstPaths graphWithSelfLoop s = .ok dfp ∧
        (dfp.marked.length : Int) = graphWithSelfLoop.V ∧
        (dfp.edgeTo.length : Int) = graphWithSelfLoop.V ∧
        ∀ v, 0 ≤ v ∧ v < graphWithSelfLoop.V →
          ∃ b p, dfp.HasPathTo v = .ok b ∧ dfp.PathTo v = .ok p :=
  graph_invariant { v := 2, e := 1, adj := [[1], [0]] } graphWithSelfLoop [(0, 0)]
    (Or.inr ⟨"2\n1\n0 1".toList, by decide⟩) (by decide)

/-- C17: on a graph built by `AddEdge` calls and for a source in range, the
traversal of `NewDepthFirstPaths` returns: at most `V` calls of `dfs` are made,
each but the first on a newly marked vertex, and the recursion depth `V`
suffices, as does every greater one. For every vertex `v` in range `PathTo(v)`
returns; when `v` has a path, the predecessor walk ends at the source after
`k` iterations with `k ≤ V`, that is after at most `V - 1` steps along
`edgeTo`. -/
theorem traversal_terminates (V : Int) (es : List (Int × Int)) (g : Undirected)
    (hg : buildGraph V es = .ok g) (s : Int) (hs : 0 ≤ s ∧ s < g.V) :
    ∃ dfp c, NewDepthFirstPaths g s = .ok dfp ∧
      newDepthFirstPathsCalls g s = .ok (dfp, c) ∧ c ≤ g.V.toNat ∧
      (∀ fuel, g.V.toNat ≤ fuel → newDepthFirstPathsFuel fuel g s = .ok dfp) ∧
      ∀ v, 0 ≤ v ∧ v < g.V →
        ∃ r, dfp.PathTo v = .ok r ∧
          (dfp.HasPathTo v = .ok true →
            ∃ q k, DepthFirstPaths.pathToLoop dfp.edgeTo dfp.s k v [] = .ok q ∧
              q.length = k ∧ k ≤ g.V.toNat ∧ (k : Int) - 1 ≤ g.V - 1 ∧
              q.getLast? = some s) := by
  have hwf := buildGraph_WF hg
  obtain ⟨dfp, hdfp, hgeq, hseq, hwfd, hinv, -⟩ :=
    DepthFirstPaths.NewDepthFirstPaths_spec hwf hs
  obtain ⟨⟨c, hc, hcV⟩, hfuel⟩ := newDepthFirstPaths_calls hs hdfp
  refine ⟨dfp, c, hdfp, hc, hcV, hfuel, ?_⟩
  intro v hv
  have hv' : 0 ≤ v ∧ v < dfp.g.v := by rw [hgeq]; exact hv
  rcases DepthFirstPaths.query_cases hwfd hinv hv' with ⟨-, h1, h2⟩ | ⟨q, -, hq, h1, h2⟩
  · refine ⟨_, h2, ?_⟩
    intro h
    rw [h1] at h
    cases h
  · refine ⟨_, h2, fun _ => ⟨q, q.length, ?_, rfl, ?_, ?_, ?_⟩⟩
    · simpa using DepthFirstPaths.pathToLoop_walk hq q.length [] (le_refl _)
    · have := hq.length_le hwfd hinv
      rwa [hgeq] at this
    · have := hq.length_le hwfd hinv
      rw [hgeq] at this
      have hnn := hwf.nonneg
      unfold Undirected.V
      omega
    · rw [hq.shape.2.1, hseq]

/-- C17 on the graph with a self-loop, from source 0. -/
theorem traversal_terminates_witness :
    ∃ dfp c, NewDepthFirstPaths graphWithSelfLoop 0 = .ok dfp ∧
      newDepthFirstPathsCalls graphWithSelfLoop 0 = .ok (dfp, c) ∧
      c ≤ graphWithSelfLoop.V.toNat ∧
      (∀ fuel, graphWithSelfLoop.V.toNat ≤ fuel →
        newDepthFirstPathsFuel fuel graphWithSelfLoop 0 = .ok dfp) ∧
      ∀ v, 0 ≤ v ∧ v < graphWithSelfLoop.V →
        ∃ r, dfp.PathTo v = .ok r ∧
          (dfp.HasPathTo v = .ok true →
            ∃ q k, DepthFirstPaths.pathToLoop dfp.edgeTo dfp.s k v [] = .ok q ∧
              q.length = k ∧ k ≤ graphWithSelfLoop.V.toNat ∧
              (k : Int) - 1 ≤ graphWithSelfLoop.V - 1 ∧ q.getLast? = some 0) :=
  traversal_terminates 2 [(0, 1), (0, 0)] graphWithSelfLoop (by decide) 0 (by decide)

/-! ## The path returned is the first in adjacency order -/

/-- C20: on a graph built by `AddEdge` calls and for a source `s` in range,
`NewDepthFirstPaths(g, s)` returns a finder such that for every reached `v`,
`PathTo(v)` is a repetition-free path from `s` to `v` whose encoding by
positions of first occurrence in the adjacency sequences is lexicographically
less than or equal to the encoding of every repetition-free path from `s` to
`v` in `g`. -/
theorem PathTo_lex_first (V : Int) (es : List (Int × Int)) (g : Undirected)
    (hg : buildGraph V es = .ok g) (s : Int) (hs : 0 ≤ s ∧ s < g.V) :
    ∃ dfp, NewDepthFirstPaths g s = .ok dfp ∧
      ∀ v, dfp.HasPathTo v = .ok true →
        ∃ q, dfp.PathTo v = .ok (some q) ∧ g.IsSimplePath s v q ∧
          ∀ p, g.IsSimplePath s v p → lexLe (encodePath g q) (encodePath g p) := by
  obtain ⟨dfp, hdfp, hgeq, hseq, hwf, hinv, hlex⟩ :=
    DepthFirstPaths.NewDepthFirstPaths_lex (buildGraph_WF hg) hs
  refine ⟨dfp, hdfp, ?_⟩
  intro v hhas
  obtain ⟨-, hm⟩ := DepthFirstPaths.HasPathTo_eq_ok hhas
  obtain ⟨q, hq, hmin⟩ := hlex v hm
  obtain ⟨hhead, hlast, hnd, hchain⟩ := hq.shape
  refine ⟨q.reverse, DepthFirstPaths.PathTo_marked hwf hinv hm hq, ⟨?_, ?_, ?_, ?_⟩, hmin⟩
  · rw [List.head?_reverse, hlast, hseq]
  · rw [List.getLast?_reverse, hhead]
  · rw [List.chain'_reverse, ← hgeq]
    exact hchain.imp (fun _ _ h => h.1)
  · exact List.nodup_reverse.mpr hnd

/-- C20 on the eight-vertex graph with cycles, from source 0. -/
theorem PathTo_lex_first_witness :
    ∃ dfp, NewDepthFirstPaths graphWithCycles 0 = .ok dfp ∧
      ∀ v, dfp.HasPathTo v = .ok true →
        ∃ q, dfp.PathTo v = .ok (some q) ∧ graphWithCycles.IsSimplePath 0 v q ∧
          ∀ p, graphWithCycles.IsSimplePath 0 v p →
            lexLe (encodePath graphWithCycles q) (encodePath graphWithCycles p) :=
  PathTo_lex_first 8
    [(0, 1), (0, 6), (0, 7), (1, 6), (1, 2), (1, 4), (2, 3), (2, 4), (3, 4), (4, 5)]
    graphWithCycles (by decide) 0 (by decide)

end Graph
